import Mathlib

/-!
# unsort: a line shuffler

A shallow embedding of `unsort` from `main.go`, followed by theorems about it.

`unsort` reads its input with a `bufio.Scanner`, shuffles the lines with draws
from `math/rand` and writes them with `fmt.Fprintln`.  These routines belong to
the Go standard library, not to the repository; they are embedded here as that
library defines them:

* `bufio`: `NewScanner`, `Scanner.Scan` with its buffer bookkeeping, the default
  split function `ScanLines` with `dropCR`, `setErr`, `Err`, `Text`, and the
  constants `MaxScanTokenSize` and `startBufSize`;
* `fmt.Fprintln` with one string operand: one `Write` of the string and a
  newline;
* `math/rand`: the generator is a parameter, a state type with `Seed` and
  `Intn`, of which only the documented range of `Intn` is used.

The streams are modelled as follows:

* bytes are natural numbers (only ever compared with 10, the newline, and 13,
  the carriage return);
* an input stream is the bytes it will deliver and the value `Read` reports once
  they are used up (`io.EOF` for a normal end, any other value for a failure);
  a `Read` fills the buffer it is given as far as the bytes reach, as
  `bytes.Buffer` and files do;
* an output stream records every `Write` call and the bytes it accepted, and
  answers each call from a fault plan.

Loops that the source runs until a condition holds are given a bound computed
from the input; the theorems show the bound is never what stops them.
-/

namespace Unsort

/-- One byte of a stream or of a Go string. -/
abbrev Byte := Nat

/-- One record: the text of a line, as the bytes of a Go string. -/
abbrev Line := List Byte

/-- The newline byte. -/
def NL : Byte := 10

/-- The carriage return byte. -/
def CR : Byte := 13

/-- Go error values that can travel through `unsort`. -/
inductive GoError where
  | EOF
  | ErrTooLong
  | ErrNoProgress
  | ErrAdvanceTooFar
  | other (code : Nat)
  deriving DecidableEq, Repr

/-! ## io.Reader -/

/-- An input stream: the bytes still to be delivered and the value reported by
`Read` once none is left. -/
structure Reader where
  data : List Byte
  final : GoError
  deriving DecidableEq, Repr

/-- `Read(p)` with `len(p) = n`: copies as much as fits, like `bytes.Buffer.Read`;
at the end of the data it reports `final` (and nothing for an empty `p`). -/
def Reader.Read (r : Reader) (n : Nat) : List Byte × Option GoError × Reader :=
  match r.data with
  | [] => if n = 0 then ([], none, r) else ([], some r.final, r)
  | _ :: _ => (r.data.take n, none, { r with data := r.data.drop n })

/-! ## bufio.Scanner -/

/-- `bufio.MaxScanTokenSize`. -/
def MaxScanTokenSize : Nat := 64 * 1024

/-- `bufio.startBufSize`. -/
def startBufSize : Nat := 4096

/-- The largest `int`. -/
def maxInt : Nat := 2 ^ 63 - 1

/-- `bufio.dropCR`: drops one terminal carriage return. -/
def dropCR (data : List Byte) : List Byte :=
  if data.getLast? = some CR then data.dropLast else data

/-- `bufio.ScanLines`: the advance and the token (`none` for a nil token). -/
def ScanLines (data : List Byte) (atEOF : Bool) : Nat × Option (List Byte) :=
  if atEOF && data.isEmpty then (0, none)
  else
    let i := data.indexOf NL
    if i < data.length then (i + 1, some (dropCR (data.take i)))
    else if atEOF then (data.length, some (dropCR data))
    else (0, none)

/-- The state of a `bufio.Scanner`.  The buffer is kept as its length `cap`,
the offset `start` and the unread part `pending = buf[start:end]`, so that
`end = start + pending.length`. -/
structure Scanner where
  r : Reader
  maxTokenSize : Nat
  tok : Option (List Byte)
  cap : Nat
  start : Nat
  pending : List Byte
  err : Option GoError
  deriving DecidableEq, Repr

/-- `bufio.NewScanner`. -/
def NewScanner (r : Reader) : Scanner :=
  { r := r, maxTokenSize := MaxScanTokenSize, tok := none, cap := 0, start := 0,
    pending := [], err := none }

/-- `Scanner.setErr`: records the first error that is not `io.EOF`. -/
def Scanner.setErr (s : Scanner) (e : GoError) : Scanner :=
  if s.err = none ∨ s.err = some GoError.EOF then { s with err := some e } else s

/-- `Scanner.Err`. -/
def Scanner.Err (s : Scanner) : Option GoError :=
  if s.err = some GoError.EOF then none else s.err

/-- `Scanner.Text`. -/
def Scanner.Text (s : Scanner) : Line := s.tok.getD []

/-- What one turn of the loop in `Scanner.Scan` does: return, or go round again. -/
inductive ScanStep where
  | ret (b : Bool) (s : Scanner)
  | again (s : Scanner)
  deriving DecidableEq, Repr

/-- The read at the end of a turn of the `Scan` loop.  A reader that hands out
nothing without an error would do so on each of the 100 retries, which ends in
`io.ErrNoProgress`. -/
def Scanner.readMore (s : Scanner) : ScanStep :=
  match s.r.Read (s.cap - (s.start + s.pending.length)) with
  | (bs, e, r') =>
    let s1 := { s with r := r', pending := s.pending ++ bs }
    match e with
    | some e => .again (s1.setErr e)
    | none => if 0 < bs.length then .again s1 else .again (s1.setErr GoError.ErrNoProgress)

/-- The second half of a turn of the `Scan` loop: stop on a recorded error,
else shift, grow the buffer (or fail with `ErrTooLong`) and read. -/
def Scanner.fill (s : Scanner) : ScanStep :=
  if s.err ≠ none then .ret false { s with start := 0, pending := [] }
  else
    let s1 : Scanner :=
      if 0 < s.start ∧ (s.start + s.pending.length = s.cap ∨ s.cap / 2 < s.start)
      then { s with start := 0 } else s
    if s1.start + s1.pending.length = s1.cap then
      if s1.maxTokenSize ≤ s1.cap ∨ maxInt / 2 < s1.cap then
        .ret false (s1.setErr GoError.ErrTooLong)
      else
        let newSize := if s1.cap * 2 = 0 then startBufSize else s1.cap * 2
        Scanner.readMore { s1 with cap := min newSize s1.maxTokenSize, start := 0 }
    else Scanner.readMore s1

/-- One turn of the loop in `Scanner.Scan`.  `ScanLines` returns no error and no
token without advancing, so the branches of `Scan` for a split error, for
`ErrFinalToken` (the `done` flag) and for the count of empty tokens are left
out; the check of `Scanner.advance` is kept. -/
def Scanner.turn (s : Scanner) : ScanStep :=
  if 0 < s.pending.length ∨ s.err ≠ none then
    match ScanLines s.pending (decide (s.err ≠ none)) with
    | (adv, token) =>
      if s.pending.length < adv then .ret false (s.setErr GoError.ErrAdvanceTooFar)
      else
        let s1 := { s with start := s.start + adv, pending := s.pending.drop adv, tok := token }
        match token with
        | some _ => .ret true s1
        | none => s1.fill
  else s.fill

/-- The loop of `Scanner.Scan`, at most `fuel` turns. -/
def Scanner.loop : Nat → Scanner → Bool × Scanner
  | 0, s => (false, s)
  | fuel + 1, s =>
    match s.turn with
    | .ret b s1 => (b, s1)
    | .again s1 => Scanner.loop fuel s1

/-- `Scanner.Scan`: every turn that does not return either takes a byte from
the reader or records an error, so `len(data) + 2` turns are enough. -/
def Scanner.Scan (s : Scanner) : Bool × Scanner :=
  Scanner.loop (s.r.data.length + 2) s

/-- The loop `for scanner.Scan() { lines = append(lines, scanner.Text()) }`,
at most `fuel` rounds. -/
def collectLoop : Nat → Scanner → List Line → List Line × Scanner
  | 0, s, lines => (lines, s)
  | fuel + 1, s, lines =>
    match s.Scan with
    | (true, s1) => collectLoop fuel s1 (lines ++ [s1.Text])
    | (false, s1) => (lines, s1)

/-- Lines 79 to 93 of `unsort`: the lines collected from the input and the
scanner's error.  Every successful `Scan` uses up a byte, so
`len(data) + 1` rounds are enough. -/
def collect (r : Reader) : List Line × Option GoError :=
  match collectLoop (r.data.length + 1) (NewScanner r) [] with
  | (lines, s) => (lines, s.Err)

/-! ## io.Writer and fmt.Fprintln -/

/-- An output stream: the bytes accepted so far, the payload of every `Write`
call so far, and a fault plan that answers a call from the calls before it and
its payload: `none` accepts the payload, `some (n, e)` accepts its first `n`
bytes and fails with `e`. -/
structure Writer where
  out : List Byte
  calls : List (List Byte)
  fault : List (List Byte) → List Byte → Option (Nat × GoError)

/-- `Write(p)`. -/
def Writer.Write (w : Writer) (p : List Byte) : Option GoError × Writer :=
  match w.fault w.calls p with
  | none => (none, { w with out := w.out ++ p, calls := w.calls ++ [p] })
  | some (n, e) => (some e, { w with out := w.out ++ p.take n, calls := w.calls ++ [p] })

/-- `fmt.Fprintln(w, line)` for one string operand: a single `Write` of the
line followed by a newline. -/
def Fprintln (w : Writer) (line : Line) : Option GoError × Writer :=
  w.Write (line ++ [NL])

/-- Lines 112 to 120 of `unsort`: the emitting loop. -/
def emit : List Line → Writer → Option GoError × Writer
  | [], w => (none, w)
  | line :: rest, w =>
    match Fprintln w line with
    | (some e, w1) => (some e, w1)
    | (none, w1) => emit rest w1

/-! ## math/rand -/

/-- The generator behind `math/rand`: its state, `Seed`, and `Intn` on a
positive bound, with the documented range of `Intn`. -/
structure Rng where
  State : Type
  seed : Int → State
  intn : State → Nat → Nat × State
  intn_lt : ∀ (g : State) (n : Nat), 0 < n → (intn g n).1 < n

/-- `rand.Seed(seed)`: replaces the state of the process-wide generator. -/
def Rng.Seed (G : Rng) (_g : G.State) (seed : Int) : G.State := G.seed seed

/-- `rand.Intn(n)`: panics (`none`) unless `0 < n`. -/
def Rng.Intn (G : Rng) (g : G.State) (n : Nat) : Option (Nat × G.State) :=
  if 0 < n then some (G.intn g n) else none

/-! ## The shuffle -/

/-- The parallel assignment `l[i], l[j] = l[j], l[i]`: both operands are read
(an index out of range panics, `none`), then both are stored. -/
def swapAt {α : Type} (l : List α) (i j : Nat) : Option (List α) :=
  match l[j]?, l[i]? with
  | some b, some a => some ((l.set i b).set j a)
  | _, _ => none

/-- What the shuffle loop carries: the lines, the generator and the log of the
draws made, each a requested bound and the value drawn. -/
structure ShuffleState (G : Rng) where
  lines : List Line
  g : G.State
  draws : List (Nat × Nat)

/-- Lines 102 to 108 of `unsort`: `k` more turns of `for i := range lines`
from index `i`; `none` is a panic. -/
def shuffleLoop (G : Rng) : Nat → Nat → ShuffleState G → Option (ShuffleState G)
  | 0, _, st => some st
  | k + 1, i, st =>
    match G.Intn st.g (i + 1) with
    | none => none
    | some (j, g1) =>
      match swapAt st.lines i j with
      | none => none
      | some lines1 =>
        shuffleLoop G k (i + 1) { lines := lines1, g := g1, draws := st.draws ++ [(i + 1, j)] }

/-- The whole shuffle loop of `unsort`. -/
def shuffle (G : Rng) (g : G.State) (lines : List Line) : Option (ShuffleState G) :=
  shuffleLoop G lines.length 0 { lines := lines, g := g, draws := [] }

/-! ## unsort -/

/-- How a call of `unsort` ends: a panic, or a return with `nil` or an error. -/
inductive Outcome where
  | panicked
  | returned (err : Option GoError)
  deriving DecidableEq, Repr

/-- What a call of `unsort` leaves behind. -/
structure Run (G : Rng) where
  outcome : Outcome
  w : Writer
  g : G.State
  draws : List (Nat × Nat)

/-- The function `unsort` of `main.go`.  `g0` is the state of the process-wide
generator before the call. -/
def unsort (G : Rng) (g0 : G.State) (input : Reader) (output : Writer) (seed : Int) : Run G :=
  let g1 := G.Seed g0 seed
  match collect input with
  | (_, some e) => { outcome := .returned (some e), w := output, g := g1, draws := [] }
  | (lines, none) =>
    match shuffle G g1 lines with
    | none => { outcome := .panicked, w := output, g := g1, draws := [] }
    | some st =>
      match emit st.lines output with
      | (err, w1) => { outcome := .returned err, w := w1, g := st.g, draws := st.draws }

/-! ## Draw vectors -/

/-- The swap of the loop body at index `i` with draw `j`, on any list. -/
def swapStep {α : Type} (l : List α) (i j : Nat) : List α :=
  (swapAt l i j).getD l

/-- The shuffle loop run on a given vector of draws, from index `i`. -/
def applyDraws {α : Type} : Nat → List Nat → List α → List α
  | _, [], l => l
  | i, j :: js, l => applyDraws (i + 1) js (swapStep l i j)

/-- A vector of draws the loop can meet from index `i`: the draw at index
`i + t` is at most `i + t`. -/
def ValidDraws : Nat → List Nat → Prop
  | _, [] => True
  | i, j :: js => j ≤ i ∧ ValidDraws (i + 1) js

/-- The draws `Intn(i+1), ..., Intn(i+k)` of a generator from state `g`. -/
def drawsOf (G : Rng) : Nat → Nat → G.State → List Nat
  | 0, _, _ => []
  | k + 1, i, g => (G.intn g (i + 1)).1 :: drawsOf G k (i + 1) (G.intn g (i + 1)).2

/-- Every vector of `k` draws the loop can meet from index `i`: the first
draw ranges over `0..i`, the next over `0..i+1`, and so on. -/
def allDraws : Nat → Nat → List (List Nat)
  | _, 0 => [[]]
  | i, k + 1 => (List.range (i + 1)).flatMap (fun j => (allDraws (i + 1) k).map (fun d => j :: d))

/-! ## The inside-out construction, as the specification words it -/

/-- The inside-out Fisher-Yates construction from index `i`: for each index in
ascending order, with its draw `j`, set `a[i] := a[j]` and then `a[j] := src[i]`.
The array `a` is the one being built; `src` is only read. -/
def insideOutFrom {α : Type} (src : List α) : Nat → List Nat → List α → List α
  | _, [], a => a
  | i, j :: js, a =>
    match a[j]?, src[i]? with
    | some aj, some x => insideOutFrom src (i + 1) js ((a.set i aj).set j x)
    | _, _ => a

/-- The inside-out construction of a whole array, started on a scratch array
(freshly made, so of any content) as long as `src`. -/
def insideOut {α : Type} (src : List α) (d : List Nat) (scratch : List α) : List α :=
  insideOutFrom src 0 d scratch

/-! ## The lines of a byte string, as the specification words them -/

/-- The lines of a byte string: split at each newline, the newline removed; a
last piece without a newline is a line when it is not empty. -/
def rawLines : List Byte → List Line
  | [] => []
  | b :: rest =>
    if b = NL then [] :: rawLines rest
    else
      match rawLines rest with
      | [] => [[b]]
      | l :: ls => (b :: l) :: ls

/-- ASCII text as bytes. -/
def bytes (s : String) : List Byte := s.toList.map Char.toNat

/-! ## The scanner's invariant and the contract of one `Scan` -/

/-- The buffer bookkeeping of a scanner: the unread part lies inside the
buffer, and the buffer never grows past the token limit. -/
def Scanner.Inv (s : Scanner) : Prop :=
  s.start + s.pending.length ≤ s.cap ∧ s.cap ≤ s.maxTokenSize ∧ 0 < s.maxTokenSize ∧
    s.maxTokenSize ≤ maxInt / 2

/-- What a `Scan` must return when the bytes still to come (buffered and
unread) are `all`, the stream ends with `final` and the token limit is `max`. -/
def ScanPost (all : List Byte) (final : GoError) (max : Nat) (res : Bool × Scanner) : Prop :=
  (max ≤ all.indexOf NL → res.1 = false ∧ res.2.err = some GoError.ErrTooLong) ∧
  (all.indexOf NL < max → all.indexOf NL < all.length →
    res.1 = true ∧ res.2.tok = some (dropCR (all.take (all.indexOf NL))) ∧ res.2.err = none ∧
    res.2.pending ++ res.2.r.data = all.drop (all.indexOf NL + 1) ∧ res.2.r.final = final ∧
    res.2.maxTokenSize = max ∧ res.2.Inv) ∧
  (all.indexOf NL < max → all.length ≤ all.indexOf NL → all ≠ [] →
    res.1 = true ∧ res.2.tok = some (dropCR all) ∧ res.2.err = some final ∧ res.2.pending = []) ∧
  (all = [] → res.1 = false ∧ res.2.err = some final)

/-! ## Concrete streams and generators -/

/-- A generator that replays a table: its `k`-th call `Intn(n)` returns
`table[k] % n` (0 past the end of the table), whatever the seed. -/
def replayRng (table : List Nat) : Rng where
  State := Nat
  seed := fun _ => 0
  intn := fun k n => (table.getD k 0 % n, k + 1)
  intn_lt := fun _ _ h => Nat.mod_lt _ h

/-- A linear congruential generator: `Intn(n)` steps the state and reduces it
modulo `n`. -/
def lcgRng : Rng where
  State := Nat
  seed := fun s => s.toNat % 2 ^ 31
  intn := fun g n => ((1103515245 * g + 12345) % 2 ^ 31 % n, (1103515245 * g + 12345) % 2 ^ 31)
  intn_lt := fun _ _ h => Nat.mod_lt _ h

/-- A fresh `bytes.Buffer` used as output: empty, and no write to it fails. -/
def newBuffer : Writer := { out := [], calls := [], fault := fun _ _ => none }

/-- An output stream whose `k`-th write accepts `n` bytes and then fails with
`e`; the writes before it succeed. -/
def failingWriter (k n : Nat) (e : GoError) : Writer :=
  { out := [], calls := [], fault := fun calls _ => if calls.length = k then some (n, e) else none }

/-- The lines as the shuffle loop of `unsort` leaves them, for the lines
collected from `input` and the generator seeded with `seed`. -/
def shuffledLines (G : Rng) (seed : Int) (input : Reader) : List Line :=
  match shuffle G (G.seed seed) (collect input).1 with
  | some st => st.lines
  | none => []

/-! ## The swap and the shuffle loop -/

theorem swapAt_eq_some {α : Type} (l : List α) (i j : Nat) (hi : i < l.length) (hj : j < l.length) :
    swapAt l i j = some ((l.set i l[j]).set j l[i]) := by
  simp [swapAt, List.getElem?_eq_getElem, hi, hj]

theorem swapAt_isSome_iff {α : Type} (l : List α) (i j : Nat) :
    (∃ l1, swapAt l i j = some l1) ↔ (i < l.length ∧ j < l.length) := by
  constructor
  · rintro ⟨l1, h⟩
    unfold swapAt at h
    by_cases hi : i < l.length
    · by_cases hj : j < l.length
      · exact ⟨hi, hj⟩
      · simp [List.getElem?_eq_none (Nat.le_of_not_lt hj)] at h
    · simp [List.getElem?_eq_none (Nat.le_of_not_lt hi)] at h
  · rintro ⟨hi, hj⟩
    exact ⟨_, swapAt_eq_some l i j hi hj⟩

theorem set_set_swap_perm {α : Type} (l : List α) (i j : Nat) (hi : i < l.length)
    (hj : j < l.length) : ((l.set i l[j]).set j l[i]).Perm l := by
  classical
  rw [List.perm_iff_count]
  intro b
  have hj1 : j < (l.set i l[j]).length := by simpa using hj
  rw [List.count_set _ _ _ _ hj1, List.count_set _ _ _ _ hi]
  have hget : (l.set i l[j])[j] = l[j] := by
    rw [List.getElem_set]
    split <;> rfl
  rw [hget]
  have h1 : (if (l[i] == b) = true then 1 else 0) ≤ l.count b := by
    split
    · rename_i h
      have : b ∈ l := by
        have := List.getElem_mem hi
        simp at h; rw [← h]; exact this
      exact List.count_pos_iff.mpr this
    · omega
  omega


theorem swapAt_length {α : Type} (l l1 : List α) (i j : Nat) (h : swapAt l i j = some l1) :
    l1.length = l.length := by
  obtain ⟨hi, hj⟩ := (swapAt_isSome_iff l i j).mp ⟨l1, h⟩
  rw [swapAt_eq_some l i j hi hj] at h
  injection h with h
  subst h
  simp

theorem swapAt_perm {α : Type} (l l1 : List α) (i j : Nat) (h : swapAt l i j = some l1) :
    l1.Perm l := by
  obtain ⟨hi, hj⟩ := (swapAt_isSome_iff l i j).mp ⟨l1, h⟩
  rw [swapAt_eq_some l i j hi hj] at h
  injection h with h
  subst h
  exact set_set_swap_perm l i j hi hj

theorem swapStep_perm {α : Type} (l : List α) (i j : Nat) : (swapStep l i j).Perm l := by
  unfold swapStep
  cases h : swapAt l i j with
  | none => simp
  | some l1 => simpa using swapAt_perm l l1 i j h

theorem swapStep_length {α : Type} (l : List α) (i j : Nat) :
    (swapStep l i j).length = l.length := (swapStep_perm l i j).length_eq

theorem applyDraws_perm {α : Type} (d : List Nat) : ∀ (i : Nat) (l : List α),
    (applyDraws i d l).Perm l := by
  induction d with
  | nil => intro i l; simp [applyDraws]
  | cons j js ih =>
    intro i l
    simp only [applyDraws]
    exact (ih (i + 1) (swapStep l i j)).trans (swapStep_perm l i j)

theorem applyDraws_length {α : Type} (d : List Nat) (i : Nat) (l : List α) :
    (applyDraws i d l).length = l.length := (applyDraws_perm d i l).length_eq

theorem drawsOf_length (G : Rng) : ∀ (k i : Nat) (g : G.State), (drawsOf G k i g).length = k := by
  intro k
  induction k with
  | zero => intro i g; rfl
  | succ k ih => intro i g; simp [drawsOf, ih]

theorem drawsOf_valid (G : Rng) : ∀ (k i : Nat) (g : G.State), ValidDraws i (drawsOf G k i g) := by
  intro k
  induction k with
  | zero => intro i g; trivial
  | succ k ih =>
    intro i g
    exact ⟨Nat.lt_succ_iff.mp (G.intn_lt g (i + 1) (Nat.succ_pos i)), ih (i + 1) _⟩

theorem shuffleLoop_spec (G : Rng) : ∀ (k i : Nat) (st : ShuffleState G),
    i + k ≤ st.lines.length →
    ∃ st1, shuffleLoop G k i st = some st1 ∧
      st1.lines = applyDraws i (drawsOf G k i st.g) st.lines ∧
      st1.draws = st.draws ++ (List.range' (i + 1) k).zip (drawsOf G k i st.g) := by
  intro k
  induction k with
  | zero =>
    intro i st _
    exact ⟨st, rfl, rfl, by simp [drawsOf]⟩
  | succ k ih =>
    intro i st hlen
    have hj : (G.intn st.g (i + 1)).1 < i + 1 := G.intn_lt st.g (i + 1) (Nat.succ_pos i)
    have hi : i < st.lines.length := by omega
    have hj1 : (G.intn st.g (i + 1)).1 < st.lines.length := by omega
    have hsw := swapAt_eq_some st.lines i _ hi hj1
    have hstep : swapStep st.lines i (G.intn st.g (i + 1)).1 =
        (st.lines.set i st.lines[(G.intn st.g (i + 1)).1]).set (G.intn st.g (i + 1)).1 st.lines[i] := by
      simp [swapStep, hsw]
    obtain ⟨st1, h1, h2, h3⟩ := ih (i + 1)
      { lines := (st.lines.set i st.lines[(G.intn st.g (i + 1)).1]).set (G.intn st.g (i + 1)).1 st.lines[i],
        g := (G.intn st.g (i + 1)).2,
        draws := st.draws ++ [(i + 1, (G.intn st.g (i + 1)).1)] } (by simp; omega)
    refine ⟨st1, ?_, ?_, ?_⟩
    · simp only [shuffleLoop, Rng.Intn, Nat.succ_pos, if_true, hsw]
      exact h1
    · rw [h2]; simp only [drawsOf, applyDraws, hstep]
    · rw [h3]; simp [drawsOf, List.range'_succ]

/-! ## The emitting loop -/

theorem emit_ok (lines : List Line) : ∀ (w : Writer),
    (∀ i (h : i < lines.length),
      w.fault (w.calls ++ (lines.take i).map (· ++ [NL])) (lines[i] ++ [NL]) = none) →
    emit lines w = (none, { w with out := w.out ++ (lines.map (· ++ [NL])).flatten,
                                   calls := w.calls ++ lines.map (· ++ [NL]) }) := by
  induction lines with
  | nil => intro w _; simp [emit]
  | cons a rest ih =>
    intro w h
    have h0 := h 0 (by simp)
    simp only [List.take_zero, List.map_nil, List.append_nil, List.getElem_cons_zero] at h0
    simp only [emit, Fprintln, Writer.Write, h0]
    rw [ih]
    · simp
    · intro i hi
      have := h (i + 1) (by simpa using hi)
      simpa using this

theorem emit_fail (lines : List Line) : ∀ (w : Writer) (k n : Nat) (e : GoError)
    (hk : k < lines.length),
    (∀ i (h : i < k),
      w.fault (w.calls ++ (lines.take i).map (· ++ [NL])) (lines[i] ++ [NL]) = none) →
    w.fault (w.calls ++ (lines.take k).map (· ++ [NL])) (lines[k] ++ [NL]) = some (n, e) →
    emit lines w = (some e,
      { w with out := w.out ++ ((lines.take k).map (· ++ [NL])).flatten ++ (lines[k] ++ [NL]).take n,
               calls := w.calls ++ (lines.take (k + 1)).map (· ++ [NL]) }) := by
  induction lines with
  | nil => intro w k n e hk; simp at hk
  | cons a rest ih =>
    intro w k n e hk hok hbad
    cases k with
    | zero =>
      simp only [List.take_zero, List.map_nil, List.append_nil, List.getElem_cons_zero] at hbad
      simp [emit, Fprintln, Writer.Write, hbad]
    | succ k =>
      have h0 := hok 0 (Nat.succ_pos k)
      simp only [List.take_zero, List.map_nil, List.append_nil, List.getElem_cons_zero] at h0
      simp only [emit, Fprintln, Writer.Write, h0]
      rw [ih _ k n e (by simpa using hk)]
      · simp
      · intro i hi
        have := hok (i + 1) (by omega)
        simpa using this
      · simpa using hbad

theorem emit_none_inv (lines : List Line) : ∀ (w w1 : Writer),
    emit lines w = (none, w1) →
    ∀ i (h : i < lines.length),
      w.fault (w.calls ++ (lines.take i).map (· ++ [NL])) (lines[i] ++ [NL]) = none := by
  induction lines with
  | nil => intro w w1 _ i h; simp at h
  | cons a rest ih =>
    intro w w1 hem i hi
    simp only [emit, Fprintln, Writer.Write] at hem
    cases hf : w.fault w.calls (a ++ [NL]) with
    | some p =>
      obtain ⟨n, e⟩ := p
      simp [hf] at hem
    | none =>
      simp only [hf] at hem
      cases i with
      | zero => simpa using hf
      | succ i =>
        have := ih _ w1 hem i (by simpa using hi)
        simpa using this

/-! ## unsort, stage by stage -/

/-- What `unsort` does once the lines are collected without an error. -/
theorem unsort_of_collect (G : Rng) (g0 : G.State) (input : Reader) (output : Writer) (seed : Int)
    (lines : List Line) (hc : collect input = (lines, none)) :
    (unsort G g0 input output seed).outcome =
        .returned (emit (applyDraws 0 (drawsOf G lines.length 0 (G.seed seed)) lines) output).1 ∧
    (unsort G g0 input output seed).w =
        (emit (applyDraws 0 (drawsOf G lines.length 0 (G.seed seed)) lines) output).2 ∧
    (unsort G g0 input output seed).draws =
        (List.range' 1 lines.length).zip (drawsOf G lines.length 0 (G.seed seed)) := by
  obtain ⟨st1, h1, h2, h3⟩ := shuffleLoop_spec G lines.length 0
    { lines := lines, g := G.seed seed, draws := [] } (by simp)
  simp only [unsort, hc, shuffle, Rng.Seed, h1]
  simp only [List.nil_append, zero_add] at h2 h3
  rw [h2, h3]
  exact ⟨rfl, rfl, rfl⟩

/-- What `unsort` does when the scanner ends with an error. -/
theorem unsort_of_collect_err (G : Rng) (g0 : G.State) (input : Reader) (output : Writer)
    (seed : Int) (lines : List Line) (e : GoError) (hc : collect input = (lines, some e)) :
    (unsort G g0 input output seed).outcome = .returned (some e) ∧
    (unsort G g0 input output seed).w = output ∧
    (unsort G g0 input output seed).draws = [] := by
  simp [unsort, hc]

theorem emit_none_writer (lines : List Line) (w w1 : Writer) (h : emit lines w = (none, w1)) :
    w1 = { w with out := w.out ++ (lines.map (· ++ [NL])).flatten,
                  calls := w.calls ++ lines.map (· ++ [NL]) } := by
  have := emit_ok lines w (emit_none_inv lines w w1 h)
  rw [h] at this
  injection this with _ h2

/-! ## The scanner, turn by turn -/

theorem ScanLines_of_mem (p : List Byte) (b : Bool) (h : NL ∈ p) :
    ScanLines p b = (p.indexOf NL + 1, some (dropCR (p.take (p.indexOf NL)))) := by
  have hlt : p.indexOf NL < p.length := List.indexOf_lt_length.mpr h
  have hne : p ≠ [] := by intro h0; rw [h0] at h; simp at h
  simp [ScanLines, hlt, hne]

theorem ScanLines_false_of_not_mem (p : List Byte) (h : NL ∉ p) : ScanLines p false = (0, none) := by
  have hidx : p.indexOf NL = p.length := List.indexOf_eq_length.mpr h
  simp [ScanLines, hidx]

theorem ScanLines_true_of_not_mem (p : List Byte) (h : NL ∉ p) (hp : p ≠ []) :
    ScanLines p true = (p.length, some (dropCR p)) := by
  have hidx : p.indexOf NL = p.length := List.indexOf_eq_length.mpr h
  simp [ScanLines, hidx, hp]

theorem ScanLines_true_nil : ScanLines [] true = (0, none) := by
  simp [ScanLines]

theorem turn_of_mem (s : Scanner) (h : NL ∈ s.pending) :
    s.turn = .ret true { s with start := s.start + (s.pending.indexOf NL + 1),
                                pending := s.pending.drop (s.pending.indexOf NL + 1),
                                tok := some (dropCR (s.pending.take (s.pending.indexOf NL))) } := by
  have hlt : s.pending.indexOf NL < s.pending.length := List.indexOf_lt_length.mpr h
  have hpos : 0 < s.pending.length := by omega
  have hnot : ¬ s.pending.length < s.pending.indexOf NL + 1 := by omega
  unfold Scanner.turn
  rw [if_pos (Or.inl hpos), ScanLines_of_mem _ _ h]
  simp only [hnot, if_false]

theorem turn_of_not_mem (s : Scanner) (h : NL ∉ s.pending) (herr : s.err = none) :
    ∃ t, s.turn = Scanner.fill { s with tok := t } := by
  obtain ⟨r, max, tok, cap, start, pending, err⟩ := s
  simp only at h herr
  subst herr
  by_cases hp : pending = []
  · subst hp
    exact ⟨tok, by simp [Scanner.turn]⟩
  · refine ⟨none, ?_⟩
    have hpos : 0 < pending.length := List.length_pos.mpr hp
    simp [Scanner.turn, hpos, ScanLines_false_of_not_mem _ h]

theorem turn_of_err (s : Scanner) (e : GoError) (h : NL ∉ s.pending) (herr : s.err = some e)
    (hp : s.pending ≠ []) :
    s.turn = .ret true { s with start := s.start + s.pending.length, pending := [],
                                tok := some (dropCR s.pending) } := by
  obtain ⟨r, max, tok, cap, start, pending, err⟩ := s
  simp only at h herr hp
  subst herr
  simp [Scanner.turn, ScanLines_true_of_not_mem _ h hp]

theorem turn_of_err_nil (s : Scanner) (e : GoError) (herr : s.err = some e) (hp : s.pending = []) :
    ∃ s1, s.turn = .ret false s1 ∧ s1.err = some e := by
  obtain ⟨r, max, tok, cap, start, pending, err⟩ := s
  simp only at herr hp
  subst herr hp
  exact ⟨_, by simp [Scanner.turn, ScanLines_true_nil, Scanner.fill]; rfl, rfl⟩

theorem readMore_nil (s : Scanner) (herr : s.err = none)
    (hfree : s.start + s.pending.length < s.cap) (hd : s.r.data = []) :
    s.readMore = .again { s with err := some s.r.final } := by
  obtain ⟨⟨data, final⟩, max, tok, cap, start, pending, err⟩ := s
  simp only at herr hfree hd
  subst herr hd
  have hne : ¬ cap - (start + pending.length) = 0 := by omega
  simp [Scanner.readMore, Reader.Read, hne, Scanner.setErr]

theorem readMore_cons (s : Scanner) (hfree : s.start + s.pending.length < s.cap)
    (hd : s.r.data ≠ []) :
    s.readMore = .again { s with
      r := { s.r with data := s.r.data.drop (s.cap - (s.start + s.pending.length)) },
      pending := s.pending ++ s.r.data.take (s.cap - (s.start + s.pending.length)) } := by
  obtain ⟨⟨data, final⟩, max, tok, cap, start, pending, err⟩ := s
  simp only at hfree hd
  cases data with
  | nil => exact absurd rfl hd
  | cons b rest =>
    have hpos : 0 < cap - (start + pending.length) := by omega
    have hlen : 0 < (List.take (cap - (start + pending.length)) (b :: rest)).length := by
      simp; omega
    simp only [Scanner.readMore, Reader.Read, hlen, if_true]

theorem readMore_spec (s : Scanner) (herr : s.err = none) (hinv : s.Inv)
    (hfree : s.start + s.pending.length < s.cap) :
    (s.r.data = [] ∧ ∃ s1, s.readMore = .again s1 ∧ s1.err = some s.r.final ∧
        s1.pending = s.pending) ∨
    (s.r.data ≠ [] ∧ ∃ s1, s.readMore = .again s1 ∧ s1.err = none ∧
        s1.pending ++ s1.r.data = s.pending ++ s.r.data ∧
        s1.r.data.length < s.r.data.length ∧ s1.r.final = s.r.final ∧
        s1.maxTokenSize = s.maxTokenSize ∧ s1.Inv) := by
  by_cases hd : s.r.data = []
  · exact Or.inl ⟨hd, _, readMore_nil s herr hfree hd, rfl, rfl⟩
  · refine Or.inr ⟨hd, _, readMore_cons s hfree hd, herr, ?_, ?_, rfl, rfl, ?_⟩
    · simp
    · have : 0 < s.r.data.length := List.length_pos.mpr hd
      simp only [List.length_drop]
      omega
    · obtain ⟨h1, h2, h3, h4⟩ := hinv
      refine ⟨?_, h2, h3, h4⟩
      simp only [List.length_append, List.length_take]
      omega


theorem fill_spec (s : Scanner) (herr : s.err = none) (hinv : s.Inv) :
    (s.maxTokenSize ≤ s.pending.length ∧
      ∃ s1, s.fill = .ret false s1 ∧ s1.err = some GoError.ErrTooLong) ∨
    (s.pending.length < s.maxTokenSize ∧
      ∃ s2 : Scanner, s.fill = s2.readMore ∧ s2.err = none ∧ s2.Inv ∧
        s2.start + s2.pending.length < s2.cap ∧ s2.pending = s.pending ∧ s2.r = s.r ∧
        s2.maxTokenSize = s.maxTokenSize) := by
  obtain ⟨r, max, tok, cap, start, pending, err⟩ := s
  obtain ⟨h1, h2, h3, h4⟩ := hinv
  simp only at herr h1 h2 h3 h4
  subst herr
  simp only [Scanner.fill, ne_eq, not_true_eq_false, if_false]
  by_cases hshift : 0 < start ∧ (start + pending.length = cap ∨ cap / 2 < start)
  · -- the data is moved to the front of the buffer, which leaves room
    rw [if_pos hshift]
    simp only [zero_add]
    have hne : ¬ pending.length = cap := by omega
    rw [if_neg hne]
    refine Or.inr ⟨by omega, _, rfl, rfl, ⟨?_, h2, h3, h4⟩, ?_, rfl, rfl, rfl⟩
    · simp only [zero_add]; omega
    · simp only [zero_add]; omega
  · rw [if_neg hshift]
    simp only
    by_cases hfull : start + pending.length = cap
    · rw [if_pos hfull]
      have hstart : start = 0 := by
        by_contra hs
        exact hshift ⟨Nat.pos_of_ne_zero hs, Or.inl hfull⟩
      subst hstart
      by_cases hmax : max ≤ cap ∨ maxInt / 2 < cap
      · rw [if_pos hmax]
        refine Or.inl ⟨by omega, _, rfl, ?_⟩
        simp [Scanner.setErr]
      · rw [if_neg hmax]
        have hlt : cap < max := by omega
        refine Or.inr ⟨by omega, _, rfl, rfl, ⟨?_, ?_, h3, h4⟩, ?_, rfl, rfl, rfl⟩
        · show 0 + pending.length ≤ min (if cap * 2 = 0 then startBufSize else cap * 2) max
          have hsb : startBufSize = 4096 := rfl
          split <;> omega
        · show min (if cap * 2 = 0 then startBufSize else cap * 2) max ≤ max
          omega
        · show 0 + pending.length < min (if cap * 2 = 0 then startBufSize else cap * 2) max
          have hsb : startBufSize = 4096 := rfl
          split <;> omega
    · rw [if_neg hfull]
      exact Or.inr ⟨by omega, _, rfl, rfl, ⟨h1, h2, h3, h4⟩, by show start + pending.length < cap; omega, rfl, rfl, rfl⟩


theorem loop_spec : ∀ (fuel : Nat) (s : Scanner), s.r.data.length + 2 ≤ fuel → s.Inv →
    s.err = none →
    ScanPost (s.pending ++ s.r.data) s.r.final s.maxTokenSize (Scanner.loop fuel s) := by
  intro fuel
  induction fuel with
  | zero => intro s h; omega
  | succ f ih =>
    intro s hfuel hinv herr
    by_cases hmem : NL ∈ s.pending
    · -- a whole line is buffered
      have hlt : s.pending.indexOf NL < s.pending.length := List.indexOf_lt_length.mpr hmem
      have hidx : (s.pending ++ s.r.data).indexOf NL = s.pending.indexOf NL :=
        List.indexOf_append_of_mem hmem
      obtain ⟨h1, h2, h3, h4⟩ := hinv
      simp only [Scanner.loop, turn_of_mem s hmem]
      refine ⟨?_, ?_, ?_, ?_⟩
      · intro h; rw [hidx] at h; omega
      · intro _ _
        rw [hidx]
        refine ⟨rfl, ?_, herr, ?_, rfl, rfl, ⟨?_, h2, h3, h4⟩⟩
        · simp only [List.take_append_of_le_length (Nat.le_of_lt hlt)]
        · simp only [List.drop_append_of_le_length (Nat.succ_le_of_lt hlt)]
        · simp only [List.length_drop]; omega
      · intro _ h; rw [hidx] at h; simp only [List.length_append] at h; omega
      · intro h
        have : s.pending = [] := (List.append_eq_nil.mp h).1
        rw [this] at hmem; simp at hmem
    · obtain ⟨t, ht⟩ := turn_of_not_mem s hmem herr
      have hidx : (s.pending ++ s.r.data).indexOf NL = s.pending.length + s.r.data.indexOf NL :=
        List.indexOf_append_of_not_mem hmem
      have hinv0 : Scanner.Inv { s with tok := t } := hinv
      rcases fill_spec { s with tok := t } herr hinv0 with ⟨hlong, s1, hf, he⟩ | ⟨hshort, s2, hf, he2, hinv2, hfree, hp2, hr2, hm2⟩
      · -- the buffer is full at its largest size
        simp only [Scanner.loop, ht, hf]
        simp only at hlong
        refine ⟨fun _ => ⟨rfl, he⟩, ?_, ?_, ?_⟩
        · intro h; rw [hidx] at h; omega
        · intro h; rw [hidx] at h; omega
        · intro h
          have : s.pending = [] := (List.append_eq_nil.mp h).1
          rw [this] at hlong
          have := hinv.2.2.1
          simp at hlong; omega
      · simp only at hshort hp2 hr2 hm2
        rcases readMore_spec s2 he2 hinv2 hfree with ⟨hd, s3, hrm, he3, hp3⟩ | ⟨hd, s3, hrm, he3, hall, hlen, hfin, hmax, hinv3⟩
        · -- the reader is used up: the rest is the last token, if any
          rw [hr2] at hd he3
          rw [hp2] at hp3
          obtain ⟨f1, rfl⟩ : ∃ f1, f = f1 + 1 := ⟨f - 1, by omega⟩
          have hloop : Scanner.loop (f1 + 1 + 1) s = Scanner.loop (f1 + 1) s3 := by
            simp only [Scanner.loop, ht, hf, hrm]
          rw [hloop, hd, List.append_nil]
          have hidx1 : s.pending.indexOf NL = s.pending.length := List.indexOf_eq_length.mpr hmem
          by_cases hp : s.pending = []
          · obtain ⟨s4, h4, he4⟩ := turn_of_err_nil s3 _ he3 (hp3.trans hp)
            simp only [Scanner.loop, h4]
            rw [hp]
            refine ⟨?_, ?_, ?_, fun _ => ⟨rfl, he4⟩⟩
            · intro h; have := hinv.2.2.1; simp at h; omega
            · intro _ h; simp at h
            · intro _ _ h; exact absurd rfl h
          · have h4 := turn_of_err s3 _ (hp3 ▸ hmem) he3 (hp3 ▸ hp)
            simp only [Scanner.loop, h4]
            refine ⟨?_, ?_, ?_, fun h => absurd h hp⟩
            · intro h; rw [hidx1] at h; omega
            · intro _ h; rw [hidx1] at h; omega
            · intro _ _ _
              exact ⟨rfl, by rw [hp3], he3, rfl⟩
        · -- more bytes were read
          rw [hr2] at hlen hfin
          rw [hp2, hr2] at hall
          have hloop : Scanner.loop (f + 1) s = Scanner.loop f s3 := by
            simp only [Scanner.loop, ht, hf, hrm]
          rw [hloop]
          have := ih s3 (by omega) hinv3 he3
          rw [hall, hfin, hmax, hm2] at this
          exact this


/-! ## The collecting loop against the lines of the input -/

theorem rawLines_of_not_mem : ∀ (l : List Byte), NL ∉ l → l ≠ [] → rawLines l = [l] := by
  intro l
  induction l with
  | nil => intro _ h; exact absurd rfl h
  | cons b rest ih =>
    intro hmem _
    have hb : b ≠ NL := fun h => hmem (by simp [h])
    have hrest : NL ∉ rest := fun h => hmem (List.mem_cons_of_mem _ h)
    cases rest with
    | nil => simp [rawLines, hb]
    | cons c rest1 =>
      have := ih hrest (by simp)
      simp only [rawLines, hb, if_false] at this ⊢
      rw [this]

theorem rawLines_of_mem : ∀ (l : List Byte), NL ∈ l →
    rawLines l = l.take (l.indexOf NL) :: rawLines (l.drop (l.indexOf NL + 1)) := by
  intro l
  induction l with
  | nil => intro h; simp at h
  | cons b rest ih =>
    intro hmem
    by_cases hb : b = NL
    · subst hb
      simp [rawLines]
    · have hrest : NL ∈ rest := by
        rcases List.mem_cons.mp hmem with h | h
        · exact absurd h.symm hb
        · exact h
      have hidx : (b :: rest).indexOf NL = rest.indexOf NL + 1 := List.indexOf_cons_ne _ hb
      rw [hidx]
      simp only [rawLines, hb, if_false, ih hrest, List.take_succ_cons, List.drop_succ_cons]

theorem scan_of_err_nil (s : Scanner) (e : GoError) (herr : s.err = some e) (hp : s.pending = []) :
    ∃ s1, s.Scan = (false, s1) ∧ s1.err = some e := by
  obtain ⟨s1, h1, h2⟩ := turn_of_err_nil s e herr hp
  exact ⟨s1, by simp only [Scanner.Scan, Scanner.loop, h1], h2⟩

theorem collectLoop_spec : ∀ (fuel : Nat) (s : Scanner) (acc : List Line),
    (s.pending ++ s.r.data).length + 1 ≤ fuel → s.Inv → s.err = none →
    ∃ s1, collectLoop fuel s acc =
        (acc ++ ((rawLines (s.pending ++ s.r.data)).takeWhile
          (fun l => decide (l.length < s.maxTokenSize))).map dropCR, s1) ∧
      s1.err = if (rawLines (s.pending ++ s.r.data)).all (fun l => decide (l.length < s.maxTokenSize))
        then some s.r.final else some GoError.ErrTooLong := by
  intro fuel
  induction fuel with
  | zero => intro s acc h; omega
  | succ f ih =>
    intro s acc hfuel hinv herr
    obtain ⟨post1, post2, post3, post4⟩ := loop_spec (s.r.data.length + 2) s (le_refl _) hinv herr
    have hmaxpos := hinv.2.2.1
    generalize hall : s.pending ++ s.r.data = all at *
    by_cases hmem : NL ∈ all
    · have hlt : all.indexOf NL < all.length := List.indexOf_lt_length.mpr hmem
      rw [rawLines_of_mem all hmem]
      by_cases hlong : s.maxTokenSize ≤ all.indexOf NL
      · obtain ⟨hb, he⟩ := post1 hlong
        refine ⟨(Scanner.loop (s.r.data.length + 2) s).2, ?_, ?_⟩
        · have hlen : ¬ (List.take (all.indexOf NL) all).length < s.maxTokenSize := by
            simp only [List.length_take]; omega
          have hscan : s.Scan = (false, (Scanner.loop (s.r.data.length + 2) s).2) :=
            Prod.ext hb rfl
          simp only [collectLoop, hscan, List.takeWhile_cons, hlen, decide_False]
          simp
        · have hlen : ¬ (List.take (all.indexOf NL) all).length < s.maxTokenSize := by
            simp only [List.length_take]; omega
          rw [he]
          simp only [List.all_cons, decide_eq_false hlen, Bool.false_and]
          simp
      · have hshort : all.indexOf NL < s.maxTokenSize := by omega
        obtain ⟨hb, htok, he, hrest, hfin, hmax, hinv1⟩ := post2 hshort hlt
        have hscan : s.Scan = (true, (Scanner.loop (s.r.data.length + 2) s).2) :=
          Prod.ext hb rfl
        obtain ⟨s1, h1, h2⟩ := ih (Scanner.loop (s.r.data.length + 2) s).2
          (acc ++ [dropCR (all.take (all.indexOf NL))])
          (by rw [hrest]; simp only [List.length_drop]; omega) hinv1 he
        rw [hrest, hmax] at h1
        rw [hrest, hfin, hmax] at h2
        have hlen : (List.take (all.indexOf NL) all).length < s.maxTokenSize := by
          simp only [List.length_take]; omega
        refine ⟨s1, ?_, ?_⟩
        · simp only [collectLoop, hscan, Scanner.Text, htok, Option.getD_some, h1,
            List.takeWhile_cons, hlen, decide_True, if_true, List.map_cons, List.append_assoc,
            List.singleton_append]
        · rw [h2]
          simp only [List.all_cons, decide_eq_true hlen, Bool.true_and]
    · have hidx : all.indexOf NL = all.length := List.indexOf_eq_length.mpr hmem
      by_cases hnil : all = []
      · obtain ⟨hb, he⟩ := post4 hnil
        have hscan : s.Scan = (false, (Scanner.loop (s.r.data.length + 2) s).2) :=
          Prod.ext hb rfl
        refine ⟨(Scanner.loop (s.r.data.length + 2) s).2, ?_, ?_⟩
        · simp only [collectLoop, hscan]
          simp [hnil, rawLines]
        · rw [he]; simp [hnil, rawLines]
      · rw [rawLines_of_not_mem all hmem hnil]
        by_cases hlong : s.maxTokenSize ≤ all.indexOf NL
        · obtain ⟨hb, he⟩ := post1 hlong
          have hscan : s.Scan = (false, (Scanner.loop (s.r.data.length + 2) s).2) :=
            Prod.ext hb rfl
          have hlen : ¬ all.length < s.maxTokenSize := by omega
          refine ⟨(Scanner.loop (s.r.data.length + 2) s).2, ?_, ?_⟩
          · simp only [collectLoop, hscan]
            simp [hlen]
          · rw [he]; simp [hlen]
        · have hshort : all.indexOf NL < s.maxTokenSize := by omega
          obtain ⟨hb, htok, he, hp⟩ := post3 hshort (by omega) hnil
          have hscan : s.Scan = (true, (Scanner.loop (s.r.data.length + 2) s).2) :=
            Prod.ext hb rfl
          obtain ⟨s2, h2, he2⟩ := scan_of_err_nil _ _ he hp
          have hpos : 0 < all.length := List.length_pos.mpr hnil
          obtain ⟨f1, rfl⟩ : ∃ f1, f = f1 + 1 := ⟨f - 1, by omega⟩
          have hlen : all.length < s.maxTokenSize := by omega
          refine ⟨s2, ?_, ?_⟩
          · simp only [collectLoop, hscan, h2, Scanner.Text, htok, Option.getD_some]
            simp [hlen]
          · rw [he2]; simp [hlen]


theorem newScanner_inv (r : Reader) : (NewScanner r).Inv := by
  refine ⟨?_, ?_, ?_, ?_⟩ <;> simp [NewScanner, MaxScanTokenSize, maxInt]

/-- The collecting stage in closed form: the lines before the first one that
does not fit the scanner's buffer, each without its carriage return. -/
theorem collect_spec (r : Reader) :
    collect r =
      (((rawLines r.data).takeWhile (fun l => decide (l.length < MaxScanTokenSize))).map dropCR,
        if (rawLines r.data).all (fun l => decide (l.length < MaxScanTokenSize))
        then (if r.final = GoError.EOF then none else some r.final)
        else some GoError.ErrTooLong) := by
  obtain ⟨s1, h1, h2⟩ := collectLoop_spec (r.data.length + 1) (NewScanner r) []
    (by simp [NewScanner]) (newScanner_inv r) rfl
  have hp : (NewScanner r).pending ++ (NewScanner r).r.data = r.data := by simp [NewScanner]
  have hm : (NewScanner r).maxTokenSize = MaxScanTokenSize := rfl
  have hf : (NewScanner r).r.final = r.final := rfl
  rw [hp, hm] at h1
  rw [hp, hm, hf] at h2
  simp only [collect, h1, List.nil_append, Scanner.Err, h2]
  congr 1
  by_cases hall : (rawLines r.data).all (fun l => decide (l.length < MaxScanTokenSize)) = true
  · simp only [hall, if_true]
    by_cases hf : r.final = GoError.EOF
    · simp [hf]
    · simp [hf]
  · simp [hall]

theorem rawLines_no_NL : ∀ (data : List Byte) (l : Line), l ∈ rawLines data → NL ∉ l := by
  intro data
  induction data with
  | nil => intro l h; simp [rawLines] at h
  | cons b rest ih =>
    intro l h
    by_cases hb : b = NL
    · simp only [rawLines, hb, if_true, List.mem_cons] at h
      rcases h with h | h
      · rw [h]; simp
      · exact ih l h
    · simp only [rawLines, hb, if_false] at h
      cases hr : rawLines rest with
      | nil =>
        rw [hr] at h
        simp only [List.mem_singleton] at h
        rw [h]
        simpa using Ne.symm hb
      | cons l1 ls =>
        rw [hr] at h
        simp only [List.mem_cons] at h
        rcases h with h | h
        · rw [h]
          have := ih l1 (by rw [hr]; simp)
          simp only [List.mem_cons, not_or]
          exact ⟨Ne.symm hb, this⟩
        · exact ih l (by rw [hr]; simp [h])

theorem dropCR_sublist (l : List Byte) : (dropCR l).Sublist l := by
  unfold dropCR
  split
  · exact List.dropLast_sublist l
  · exact List.Sublist.refl l

theorem collect_no_NL (r : Reader) (l : Line) (h : l ∈ (collect r).1) : NL ∉ l := by
  rw [collect_spec] at h
  simp only [List.mem_map] at h
  obtain ⟨l0, h0, rfl⟩ := h
  have := rawLines_no_NL r.data l0 (List.takeWhile_subset _ h0)
  exact fun hm => this ((dropCR_sublist l0).subset hm)

theorem count_NL_flatten : ∀ (p : List Line), (∀ l ∈ p, NL ∉ l) →
    (p.map (· ++ [NL])).flatten.count NL = p.length := by
  intro p
  induction p with
  | nil => intro _; rfl
  | cons a rest ih =>
    intro h
    have ha : NL ∉ a := h a (by simp)
    have := ih (fun l hl => h l (List.mem_cons_of_mem _ hl))
    simp only [List.map_cons, List.flatten_cons, List.count_append, this, List.length_cons,
      List.count_eq_zero_of_not_mem ha]
    simp
    omega


/-! ## Draw vectors and orderings -/

theorem swapStep_eq {α : Type} (l : List α) (i j : Nat) (hi : i < l.length) (hj : j < l.length) :
    swapStep l i j = (l.set i l[j]).set j l[i] := by
  simp [swapStep, swapAt_eq_some l i j hi hj]

theorem swapStep_snoc_self {α : Type} (q : List α) (a : α) :
    swapStep (q ++ [a]) q.length q.length = q ++ [a] := by
  rw [swapStep_eq _ _ _ (by simp) (by simp)]
  simp

theorem swapStep_snoc_lt {α : Type} (q : List α) (a : α) (j : Nat) (hj : j < q.length) :
    swapStep (q ++ [a]) q.length j = q.set j a ++ [q[j]] := by
  rw [swapStep_eq _ _ _ (by simp) (by simp; omega)]
  rw [List.getElem_append_left hj, List.getElem_concat_length _ _ _ rfl]
  rw [List.set_append_right _ _ (le_refl _)]
  simp only [Nat.sub_self, List.set_cons_zero]
  rw [List.set_append_left _ _ hj]

theorem swapStep_append {α : Type} (l r : List α) (i j : Nat) (hi : i < l.length)
    (hj : j < l.length) : swapStep (l ++ r) i j = swapStep l i j ++ r := by
  rw [swapStep_eq _ _ _ (by simp; omega) (by simp; omega), swapStep_eq _ _ _ hi hj]
  rw [List.getElem_append_left hj, List.getElem_append_left hi]
  rw [List.set_append_left _ _ hi, List.set_append_left _ _ (by simpa using hj)]

theorem applyDraws_append {α : Type} (d1 d2 : List Nat) : ∀ (i : Nat) (l : List α),
    applyDraws i (d1 ++ d2) l = applyDraws (i + d1.length) d2 (applyDraws i d1 l) := by
  induction d1 with
  | nil => intro i l; simp [applyDraws]
  | cons j js ih =>
    intro i l
    have h : i + 1 + js.length = i + (js.length + 1) := by omega
    show applyDraws (i + 1) (js ++ d2) (swapStep l i j) = _
    rw [ih (i + 1), h]
    simp only [applyDraws, List.length_cons]

theorem applyDraws_snoc {α : Type} (d : List Nat) (j i : Nat) (l : List α) :
    applyDraws i (d ++ [j]) l = swapStep (applyDraws i d l) (i + d.length) j := by
  rw [applyDraws_append]
  simp [applyDraws]

theorem validDraws_append (d1 d2 : List Nat) : ∀ (i : Nat),
    ValidDraws i (d1 ++ d2) ↔ ValidDraws i d1 ∧ ValidDraws (i + d1.length) d2 := by
  induction d1 with
  | nil => intro i; simp [ValidDraws]
  | cons j js ih =>
    intro i
    have h : i + 1 + js.length = i + (js.length + 1) := by omega
    show j ≤ i ∧ ValidDraws (i + 1) (js ++ d2) ↔ _
    rw [ih (i + 1), h]
    simp only [ValidDraws, List.length_cons, and_assoc]

theorem validDraws_snoc (d : List Nat) (j i : Nat) :
    ValidDraws i (d ++ [j]) ↔ ValidDraws i d ∧ j ≤ i + d.length := by
  rw [validDraws_append]
  simp [ValidDraws]

theorem applyDraws_frame {α : Type} (d : List Nat) : ∀ (i : Nat) (l r : List α),
    ValidDraws i d → i + d.length ≤ l.length →
    applyDraws i d (l ++ r) = applyDraws i d l ++ r := by
  induction d with
  | nil => intro i l r _ _; simp [applyDraws]
  | cons j js ih =>
    intro i l r hv hlen
    simp only [List.length_cons] at hlen
    obtain ⟨hj, hv1⟩ := hv
    simp only [applyDraws]
    rw [swapStep_append l r i j (by omega) (by omega)]
    exact ih (i + 1) _ r hv1 (by rw [swapStep_length]; omega)


theorem set_same {α : Type} (l : List α) (i : Nat) (h : i < l.length) : l.set i l[i] = l := by
  apply List.ext_getElem (by simp)
  intro k h1 h2
  rw [List.getElem_set]
  split
  · rename_i hik; subst hik; rfl
  · rfl

theorem draws_exist {α : Type} : ∀ (l p : List α), p.Perm l →
    ∃ d : List Nat, d.length = l.length ∧ ValidDraws 0 d ∧ applyDraws 0 d l = p := by
  classical
  intro l
  induction l using List.reverseRecOn with
  | nil =>
    intro p hp
    exact ⟨[], rfl, trivial, by simp [applyDraws, hp.eq_nil]⟩
  | append_singleton l a ih =>
    intro p hp
    have hlen : p.length = l.length + 1 := by simpa using hp.length_eq
    obtain ⟨p', x, rfl⟩ : ∃ p' x, p = p' ++ [x] := by
      rcases List.eq_nil_or_concat p with h | ⟨p', x, h⟩
      · rw [h] at hlen; simp at hlen
      · exact ⟨p', x, by rw [h, List.concat_eq_append]⟩
    have hlen' : p'.length = l.length := by simpa using hlen
    by_cases hx : x = a
    · subst hx
      have hp' : p'.Perm l := (List.perm_append_right_iff [x]).mp hp
      obtain ⟨d', hd1, hd2, hd3⟩ := ih p' hp'
      refine ⟨d' ++ [l.length], by simp [hd1], ?_, ?_⟩
      · rw [validDraws_snoc]; exact ⟨hd2, by omega⟩
      · rw [applyDraws_snoc, applyDraws_frame d' 0 l [x] hd2 (by omega), hd3, zero_add, hd1,
          ← hlen']
        exact swapStep_snoc_self p' x
    · have ha : a ∈ p' := by
        have : a ∈ p' ++ [x] := hp.symm.subset (by simp)
        rcases List.mem_append.mp this with h | h
        · exact h
        · simp at h; exact absurd h.symm hx
      obtain ⟨j, hj, hja⟩ := List.getElem_of_mem ha
      have hq : (p'.set j x).Perm l := by
        have h1 : (p'.set j x ++ [a]).Perm (p' ++ [x]) := by
          have := swapStep_perm (p' ++ [x]) p'.length j
          rw [swapStep_snoc_lt p' x j hj, hja] at this
          exact this
        exact (List.perm_append_right_iff [a]).mp (h1.trans hp)
      obtain ⟨d', hd1, hd2, hd3⟩ := ih _ hq
      refine ⟨d' ++ [j], by simp [hd1], ?_, ?_⟩
      · rw [validDraws_snoc]; exact ⟨hd2, by omega⟩
      · rw [applyDraws_snoc, applyDraws_frame d' 0 l [a] hd2 (by omega), hd3, zero_add, hd1]
        have hl : l.length = (p'.set j x).length := by simp [hlen']
        rw [hl, swapStep_snoc_lt _ a j (by simpa using hj)]
        rw [List.set_set, List.getElem_set_self]
        rw [← hja, set_same p' j hj]


theorem swapStep_last_self {α : Type} (q : List α) (a : α) (m : Nat) (hm : q.length = m) :
    swapStep (q ++ [a]) m m = q ++ [a] := by
  subst hm
  exact swapStep_snoc_self q a

theorem swapStep_last_lt {α : Type} (q : List α) (a : α) (m j : Nat) (hm : q.length = m)
    (hj : j < q.length) : swapStep (q ++ [a]) m j = q.set j a ++ [q[j]] := by
  subst hm
  exact swapStep_snoc_lt q a j hj

theorem draws_unique {α : Type} : ∀ (l : List α), l.Nodup → ∀ (d1 d2 : List Nat),
    d1.length = l.length → d2.length = l.length → ValidDraws 0 d1 → ValidDraws 0 d2 →
    applyDraws 0 d1 l = applyDraws 0 d2 l → d1 = d2 := by
  intro l
  induction l using List.reverseRecOn with
  | nil =>
    intro _ d1 d2 h1 h2 _ _ _
    rw [List.length_eq_zero.mp h1, List.length_eq_zero.mp h2]
  | append_singleton l a ih =>
    intro hnd d1 d2 h1 h2 hv1 hv2 heq
    have hndl : l.Nodup := (List.nodup_append.mp hnd).1
    have hal : a ∉ l := fun h => (List.nodup_append.mp hnd).2.2 h (by simp)
    have hsplit : ∀ d : List Nat, d.length = (l ++ [a]).length → ∃ e j, d = e ++ [j] := by
      intro d hd
      rcases List.eq_nil_or_concat d with h | ⟨e, j, h⟩
      · rw [h] at hd; simp at hd
      · exact ⟨e, j, by rw [h, List.concat_eq_append]⟩
    obtain ⟨e1, j1, rfl⟩ := hsplit d1 h1
    obtain ⟨e2, j2, rfl⟩ := hsplit d2 h2
    have he1 : e1.length = l.length := by simpa using h1
    have he2 : e2.length = l.length := by simpa using h2
    rw [validDraws_snoc] at hv1 hv2
    obtain ⟨hv1, hj1⟩ := hv1
    obtain ⟨hv2, hj2⟩ := hv2
    rw [applyDraws_snoc, applyDraws_snoc, applyDraws_frame e1 0 l [a] hv1 (by omega),
      applyDraws_frame e2 0 l [a] hv2 (by omega), zero_add, zero_add] at heq
    have hq1 : (applyDraws 0 e1 l).Perm l := applyDraws_perm _ _ _
    have hq2 : (applyDraws 0 e2 l).Perm l := applyDraws_perm _ _ _
    have hl1 : (applyDraws 0 e1 l).length = l.length := hq1.length_eq
    have hl2 : (applyDraws 0 e2 l).length = l.length := hq2.length_eq
    have ha1 : a ∉ applyDraws 0 e1 l := fun h => hal (hq1.subset h)
    have ha2 : a ∉ applyDraws 0 e2 l := fun h => hal (hq2.subset h)
    generalize hg1 : applyDraws 0 e1 l = q1 at heq hq1 hl1 ha1
    generalize hg2 : applyDraws 0 e2 l = q2 at heq hq2 hl2 ha2
    rw [he1, he2] at heq
    have key : q1 = q2 ∧ j1 = j2 := by
      rcases Nat.lt_or_ge j1 l.length with hlt1 | hge1
      · rcases Nat.lt_or_ge j2 l.length with hlt2 | hge2
        · -- both draws fall before the last position
          have h3 := heq
          rw [swapStep_last_lt q1 a _ j1 hl1 (by omega),
            swapStep_last_lt q2 a _ j2 hl2 (by omega)] at h3
          obtain ⟨hset, hlast⟩ := List.append_inj' h3 rfl
          have hjj : j1 = j2 := by
            by_contra hne
            have hget : (q1.set j1 a)[j1]? = (q2.set j2 a)[j1]? := by rw [hset]
            rw [List.getElem?_set_self (by omega), List.getElem?_set_ne (Ne.symm hne),
              List.getElem?_eq_getElem (by omega)] at hget
            injection hget with hget
            exact ha2 (hget ▸ List.getElem_mem _)
          subst hjj
          refine ⟨?_, rfl⟩
          apply List.ext_getElem (by omega)
          intro k hk1 hk2
          by_cases hk : k = j1
          · subst hk
            simpa using hlast
          · have hget : (q1.set j1 a)[k]? = (q2.set j1 a)[k]? := by rw [hset]
            rw [List.getElem?_set_ne (Ne.symm hk), List.getElem?_set_ne (Ne.symm hk),
              List.getElem?_eq_getElem hk1, List.getElem?_eq_getElem hk2] at hget
            injection hget
        · -- the second draw keeps the last line in place, the first does not
          exfalso
          have hj2e : j2 = l.length := by omega
          subst hj2e
          have h3 := heq
          rw [swapStep_last_lt q1 a _ j1 hl1 (by omega), swapStep_last_self q2 a _ hl2] at h3
          obtain ⟨_, hlast⟩ := List.append_inj' h3 rfl
          injection hlast with hlast
          exact ha1 (hlast ▸ List.getElem_mem _)
      · have hj1e : j1 = l.length := by omega
        subst hj1e
        rcases Nat.lt_or_ge j2 l.length with hlt2 | hge2
        · exfalso
          have h3 := heq
          rw [swapStep_last_self q1 a _ hl1, swapStep_last_lt q2 a _ j2 hl2 (by omega)] at h3
          obtain ⟨_, hlast⟩ := List.append_inj' h3 rfl
          injection hlast with hlast
          exact ha2 (hlast ▸ List.getElem_mem _)
        · have hj2e : j2 = l.length := by omega
          subst hj2e
          have h3 := heq
          rw [swapStep_last_self q1 a _ hl1, swapStep_last_self q2 a _ hl2] at h3
          exact ⟨(List.append_inj' h3 rfl).1, rfl⟩
    obtain ⟨hq, hj⟩ := key
    subst hj
    rw [← hg1, ← hg2] at hq
    rw [ih hndl e1 e2 he1 he2 hv1 hv2 hq]


theorem shuffledLines_eq (G : Rng) (seed : Int) (input : Reader) :
    shuffledLines G seed input =
      applyDraws 0 (drawsOf G (collect input).1.length 0 (G.seed seed)) (collect input).1 := by
  obtain ⟨st1, h1, h2, _⟩ := shuffleLoop_spec G (collect input).1.length 0
    { lines := (collect input).1, g := G.seed seed, draws := [] } (by simp)
  simp only [shuffledLines, shuffle, h1]
  exact h2

theorem drawsOf_replay : ∀ (d pre : List Nat) (i : Nat), ValidDraws i d →
    drawsOf (replayRng (pre ++ d)) d.length i pre.length = d := by
  intro d
  induction d with
  | nil => intro pre i _; rfl
  | cons j js ih =>
    intro pre i hv
    obtain ⟨hj, hv1⟩ := hv
    have hmod : j % (i + 1) = j := Nat.mod_eq_of_lt (by omega)
    have hget : (pre ++ j :: js).getD pre.length 0 = j := by
      simp [List.getD_eq_getElem?_getD, List.getElem_append_right (le_refl pre.length)]
    have hstep : (replayRng (pre ++ j :: js)).intn pre.length (i + 1) = (j, pre.length + 1) := by
      simp only [replayRng, hget, hmod]
    simp only [List.length_cons, drawsOf, hstep]
    have := ih (pre ++ [j]) (i + 1) hv1
    rw [List.append_assoc, List.singleton_append, List.length_append, List.length_singleton]
      at this
    rw [this]


theorem mem_allDraws : ∀ (k i : Nat) (d : List Nat),
    d ∈ allDraws i k ↔ d.length = k ∧ ValidDraws i d := by
  intro k
  induction k with
  | zero =>
    intro i d
    simp only [allDraws, List.mem_singleton]
    constructor
    · rintro rfl; exact ⟨rfl, trivial⟩
    · rintro ⟨h, _⟩; exact List.length_eq_zero.mp h
  | succ k ih =>
    intro i d
    simp only [allDraws, List.mem_flatMap, List.mem_range, List.mem_map]
    constructor
    · rintro ⟨j, hj, d1, hd1, rfl⟩
      obtain ⟨h1, h2⟩ := (ih (i + 1) d1).mp hd1
      exact ⟨by simp [h1], by omega, h2⟩
    · rintro ⟨hlen, hv⟩
      cases d with
      | nil => simp at hlen
      | cons j d1 =>
        obtain ⟨hj, hv1⟩ := hv
        exact ⟨j, by omega, d1, (ih (i + 1) d1).mpr ⟨by simpa using hlen, hv1⟩, rfl⟩

theorem length_allDraws : ∀ (k i : Nat), (allDraws i k).length * i.factorial = (i + k).factorial := by
  intro k
  induction k with
  | zero => intro i; simp [allDraws]
  | succ k ih =>
    intro i
    have h := ih (i + 1)
    have hconst : (List.length ∘ fun j => List.map (fun d => j :: d) (allDraws (i + 1) k)) =
        fun _ => (allDraws (i + 1) k).length := by
      funext j; simp
    simp only [allDraws, List.length_flatMap]
    rw [hconst, List.map_const', List.sum_replicate, List.length_range, smul_eq_mul]
    have h2 : i + 1 + k = i + (k + 1) := by omega
    rw [h2, Nat.factorial_succ] at h
    rw [← h]
    ring

theorem nodup_allDraws : ∀ (k i : Nat), (allDraws i k).Nodup := by
  intro k
  induction k with
  | zero => intro i; simp [allDraws]
  | succ k ih =>
    intro i
    simp only [allDraws]
    rw [List.nodup_flatMap]
    refine ⟨fun j _ => (ih (i + 1)).map (fun a b h => by injection h), ?_⟩
    refine (List.nodup_range (i + 1)).imp ?_
    intro a b hab
    simp only [Function.onFun, List.disjoint_left, List.mem_map]
    rintro d ⟨d1, _, rfl⟩ ⟨d2, _, h⟩
    injection h with h1 _
    exact hab h1.symm


/-- When the scanner ends without an error, no line reached its limit and every
line of the input was collected. -/
theorem collect_none_lines (r : Reader) (h : (collect r).2 = none) :
    (collect r).1 = (rawLines r.data).map dropCR ∧ r.final = GoError.EOF := by
  have hspec := collect_spec r
  rw [hspec] at h ⊢
  simp only at h ⊢
  by_cases hall : (rawLines r.data).all (fun l => decide (l.length < MaxScanTokenSize)) = true
  · rw [if_pos hall] at h
    refine ⟨?_, ?_⟩
    · rw [List.takeWhile_eq_self_iff.mpr]
      intro l hl
      exact List.all_eq_true.mp hall l hl
    · by_contra hf
      rw [if_neg hf] at h
      exact absurd h (by simp)
  · rw [if_neg hall] at h
    exact absurd h (by simp)

/-- A single line, with or without its newline, is collected as one record when
it is shorter than the scanner's limit. -/
theorem collect_single_line (L : Line) (hnl : NL ∉ L) (hne : L ≠ [])
    (hlen : L.length < MaxScanTokenSize) :
    collect { data := L ++ [NL], final := .EOF } = ([dropCR L], none) ∧
    collect { data := L, final := .EOF } = ([dropCR L], none) := by
  have h1 : rawLines (L ++ [NL]) = [L] := by
    have hmem : NL ∈ L ++ [NL] := by simp
    have hidx : (L ++ [NL]).indexOf NL = L.length := by
      rw [List.indexOf_append_of_not_mem hnl]
      simp
    rw [rawLines_of_mem _ hmem, hidx]
    simp [rawLines]
  have h2 : rawLines L = [L] := rawLines_of_not_mem L hnl hne
  constructor
  · rw [collect_spec]
    simp [h1, hlen]
  · rw [collect_spec]
    simp [h2, hlen]

/-- A first line of `MaxScanTokenSize` bytes or more stops the scanner with
`ErrTooLong` before any record is collected. -/
theorem collect_first_line_too_long (L rest : List Byte) (final : GoError) (hnl : NL ∉ L)
    (hlen : MaxScanTokenSize ≤ L.length) :
    collect { data := L ++ NL :: rest, final := final } = ([], some GoError.ErrTooLong) := by
  have hmem : NL ∈ L ++ NL :: rest := by simp
  have hidx : (L ++ NL :: rest).indexOf NL = L.length := by
    rw [List.indexOf_append_of_not_mem hnl]
    simp
  have hnot : ¬ L.length < MaxScanTokenSize := by omega
  rw [collect_spec]
  simp only [rawLines_of_mem _ hmem, hidx, List.take_left', List.takeWhile_cons, hnot,
    decide_False, List.all_cons, Bool.false_and]
  simp

/-! ## The claims -/

/-- C1. When `unsort` returns `nil` (no read or write error occurred), the lines
it wrote, one `Write` of a line and a newline each, are a permutation of the
lines it read: the two have the same multiset, whatever the generator, its
seed and the draws it makes. -/
theorem C1_output_is_permutation (G : Rng) (g0 : G.State) (input : Reader) (output : Writer)
    (seed : Int) (h : (unsort G g0 input output seed).outcome = .returned none) :
    ∃ p : List Line, p.Perm (collect input).1 ∧
      (unsort G g0 input output seed).w.calls = output.calls ++ p.map (· ++ [NL]) ∧
      (unsort G g0 input output seed).w.out = output.out ++ (p.map (· ++ [NL])).flatten ∧
      (p : Multiset Line) = ((collect input).1 : Multiset Line) := by
  cases hc : collect input with
  | mk lines err =>
    cases err with
    | some e =>
      have := (unsort_of_collect_err G g0 input output seed lines e hc).1
      rw [this] at h
      simp at h
    | none =>
      obtain ⟨h1, h2, _⟩ := unsort_of_collect G g0 input output seed lines hc
      rw [h1] at h
      injection h with h
      have hw := emit_none_writer _ output _ (Prod.ext h rfl)
      refine ⟨applyDraws 0 (drawsOf G lines.length 0 (G.seed seed)) lines,
        applyDraws_perm _ _ _, ?_, ?_, ?_⟩
      · rw [h2]; exact congrArg Writer.calls hw
      · rw [h2]; exact congrArg Writer.out hw
      · exact Quotient.sound (applyDraws_perm _ _ _)

/-- Witness of C1: three lines, the linear congruential generator seeded with 42,
a fresh buffer as output. -/
theorem C1_output_is_permutation_witness :
    ∃ p : List Line, p.Perm (collect { data := bytes "x\ny\nz\n", final := .EOF }).1 ∧
      (unsort lcgRng (0 : Nat) { data := bytes "x\ny\nz\n", final := .EOF } newBuffer 42).w.calls
        = newBuffer.calls ++ p.map (· ++ [NL]) ∧
      (unsort lcgRng (0 : Nat) { data := bytes "x\ny\nz\n", final := .EOF } newBuffer 42).w.out
        = newBuffer.out ++ (p.map (· ++ [NL])).flatten ∧
      (p : Multiset Line) =
        ((collect { data := bytes "x\ny\nz\n", final := .EOF }).1 : Multiset Line) :=
  C1_output_is_permutation lcgRng (0 : Nat) { data := bytes "x\ny\nz\n", final := .EOF }
    newBuffer 42 (by decide)

/-- C2. For pairwise distinct lines the shuffle loop maps the draw vectors
`(j_0, ..., j_{n-1})` with `j_i ≤ i` one-to-one onto the orderings of the lines:
the loop run with any generator is `applyDraws` on that generator's draws, which
form such a vector; every such vector is the draws of some generator and gives
an ordering of the lines; distinct vectors give distinct orderings; every
ordering comes from exactly one vector; there are `n!` vectors, and exactly one
of them gives a chosen ordering (so uniform independent draws give it with
probability `1/n!`). -/
theorem C2_draw_vectors_onto_orderings (lines : List Line) (hnd : lines.Nodup) :
    (∀ (G : Rng) (g : G.State), ∃ st, shuffle G g lines = some st ∧
      st.lines = applyDraws 0 (drawsOf G lines.length 0 g) lines ∧
      (drawsOf G lines.length 0 g).length = lines.length ∧
      ValidDraws 0 (drawsOf G lines.length 0 g)) ∧
    (∀ d : List Nat, d.length = lines.length → ValidDraws 0 d →
      drawsOf (replayRng d) lines.length 0 (0 : Nat) = d ∧ (applyDraws 0 d lines).Perm lines) ∧
    (∀ d1 d2 : List Nat, d1.length = lines.length → d2.length = lines.length →
      ValidDraws 0 d1 → ValidDraws 0 d2 → d1 ≠ d2 →
      applyDraws 0 d1 lines ≠ applyDraws 0 d2 lines) ∧
    (∀ p : List Line, p.Perm lines →
      ∃! d : List Nat, d.length = lines.length ∧ ValidDraws 0 d ∧ applyDraws 0 d lines = p) ∧
    (allDraws 0 lines.length).length = lines.length.factorial ∧
    (∀ p : List Line, p.Perm lines →
      ((allDraws 0 lines.length).filter
        (fun d => decide (applyDraws 0 d lines = p))).length = 1) := by
  have huniq : ∀ p : List Line, p.Perm lines →
      ∃! d : List Nat, d.length = lines.length ∧ ValidDraws 0 d ∧ applyDraws 0 d lines = p := by
    intro p hp
    obtain ⟨d, h1, h2, h3⟩ := draws_exist lines p hp
    refine ⟨d, ⟨h1, h2, h3⟩, ?_⟩
    rintro d1 ⟨k1, k2, k3⟩
    exact draws_unique lines hnd d1 d k1 h1 k2 h2 (k3.trans h3.symm)
  refine ⟨?_, ?_, ?_, huniq, ?_, ?_⟩
  · intro G g
    obtain ⟨st, h1, h2, _⟩ := shuffleLoop_spec G lines.length 0
      { lines := lines, g := g, draws := [] } (by simp)
    exact ⟨st, h1, h2, drawsOf_length G _ _ _, drawsOf_valid G _ _ _⟩
  · intro d hlen hv
    have := drawsOf_replay d [] 0 hv
    simp only [List.nil_append, List.length_nil, hlen] at this
    exact ⟨this, applyDraws_perm _ _ _⟩
  · intro d1 d2 h1 h2 hv1 hv2 hne heq
    exact hne (draws_unique lines hnd d1 d2 h1 h2 hv1 hv2 heq)
  · have := length_allDraws lines.length 0
    simpa using this
  · intro p hp
    obtain ⟨d, ⟨h1, h2, h3⟩, hu⟩ := huniq p hp
    have hmem : d ∈ allDraws 0 lines.length := (mem_allDraws _ _ _).mpr ⟨h1, h2⟩
    rw [← List.countP_eq_length_filter]
    have hcongr : List.countP (fun d => decide (applyDraws 0 d lines = p)) (allDraws 0 lines.length)
        = List.countP (fun x => decide (x = d)) (allDraws 0 lines.length) := by
      apply List.countP_congr
      intro x hx
      obtain ⟨hx1, hx2⟩ := (mem_allDraws _ _ _).mp hx
      simp only [decide_eq_true_eq]
      constructor
      · intro hxp; exact hu x ⟨hx1, hx2, hxp⟩
      · rintro rfl; exact h3
    rw [hcongr]
    exact List.count_eq_one_of_mem (nodup_allDraws _ _) hmem

/-- Witness of C2: three distinct lines; the ordering `c a b` comes from exactly
one of the six draw vectors. -/
theorem C2_draw_vectors_onto_orderings_witness :
    ([[97], [98], [99]] : List Line).Nodup ∧
    (allDraws 0 3).length = 6 ∧
    ((allDraws 0 3).filter
      (fun d => decide (applyDraws 0 d ([[97], [98], [99]] : List Line) = [[99], [97], [98]]))).length
      = 1 :=
  ⟨by decide, by decide,
    (C2_draw_vectors_onto_orderings [[97], [98], [99]] (by decide)).2.2.2.2.2 [[99], [97], [98]]
      (by decide)⟩

/-- C3. `unsort` is deterministic: the process-wide generator is reseeded on
entry, so whatever state earlier calls left it in, two calls with the same
input, the same output stream and the same seed end alike, with the same
return value, the same bytes and writes on the output, the same draws and the
same generator state. -/
theorem C3_deterministic (G : Rng) (g1 g2 : G.State) (input : Reader) (output : Writer)
    (seed : Int) :
    unsort G g1 input output seed = unsort G g2 input output seed ∧
    (unsort G g1 input output seed).outcome = (unsort G g2 input output seed).outcome ∧
    (unsort G g1 input output seed).w.out = (unsort G g2 input output seed).w.out ∧
    unsort G (unsort G g1 input output seed).g input output seed = unsort G g1 input output seed :=
  ⟨rfl, rfl, rfl, rfl⟩

/-- C4. On the input of `Test_unsort_1`, the ten lines `0` to `9`, with seed 0
and an output that accepts every write, `unsort` returns `nil` and writes exactly
`8 2 3 0 5 7 1 6 9 4`, one per line, for every generator whose draws
`Intn(1), ..., Intn(10)` after `Seed(0)` are `0,0,1,2,0,4,5,5,0,8`. -/
theorem C4_seed_zero_vector (G : Rng) (g0 : G.State) (output : Writer)
    (hd : drawsOf G 10 0 (G.seed 0) = [0, 0, 1, 2, 0, 4, 5, 5, 0, 8])
    (hw : ∀ calls p, output.fault calls p = none) :
    (unsort G g0 { data := bytes "0\n1\n2\n3\n4\n5\n6\n7\n8\n9\n", final := .EOF } output 0).outcome
      = .returned none ∧
    (unsort G g0 { data := bytes "0\n1\n2\n3\n4\n5\n6\n7\n8\n9\n", final := .EOF } output 0).w.out
      = output.out ++ bytes "8\n2\n3\n0\n5\n7\n1\n6\n9\n4\n" := by
  have hc : collect { data := bytes "0\n1\n2\n3\n4\n5\n6\n7\n8\n9\n", final := .EOF } =
      ([[48], [49], [50], [51], [52], [53], [54], [55], [56], [57]], none) := by decide
  obtain ⟨h1, h2, _⟩ := unsort_of_collect G g0 _ output 0 _ hc
  have hlen : ([[48], [49], [50], [51], [52], [53], [54], [55], [56], [57]] : List Line).length
      = 10 := rfl
  rw [hlen, hd] at h1 h2
  have hs : applyDraws 0 [0, 0, 1, 2, 0, 4, 5, 5, 0, 8]
      ([[48], [49], [50], [51], [52], [53], [54], [55], [56], [57]] : List Line) =
      [[56], [50], [51], [48], [53], [55], [49], [54], [57], [52]] := by decide
  rw [hs] at h1 h2
  have hem := emit_ok [[56], [50], [51], [48], [53], [55], [49], [54], [57], [52]] output
    (fun i _ => hw _ _)
  rw [hem] at h1 h2
  refine ⟨h1, ?_⟩
  rw [h2]
  have : bytes "8\n2\n3\n0\n5\n7\n1\n6\n9\n4\n" =
      (List.map (fun x => x ++ [NL])
        [[56], [50], [51], [48], [53], [55], [49], [54], [57], [52]]).flatten := by
    decide
  rw [this]

/-- Witness of C4: the generator that replays the ten draws, and a fresh buffer. -/
theorem C4_seed_zero_vector_witness :
    (unsort (replayRng [0, 0, 1, 2, 0, 4, 5, 5, 0, 8]) (0 : Nat)
      { data := bytes "0\n1\n2\n3\n4\n5\n6\n7\n8\n9\n", final := .EOF } newBuffer 0).outcome
      = .returned none ∧
    (unsort (replayRng [0, 0, 1, 2, 0, 4, 5, 5, 0, 8]) (0 : Nat)
      { data := bytes "0\n1\n2\n3\n4\n5\n6\n7\n8\n9\n", final := .EOF } newBuffer 0).w.out
      = newBuffer.out ++ bytes "8\n2\n3\n0\n5\n7\n1\n6\n9\n4\n" :=
  C4_seed_zero_vector (replayRng [0, 0, 1, 2, 0, 4, 5, 5, 0, 8]) (0 : Nat) newBuffer
    (by decide) (fun _ _ => rfl)

/-- C5. When `unsort` returns `nil`, it wrote as many lines as it read: one
`Write` per collected line, the shuffle keeps the number of lines, every line of
the input was collected, and the bytes written hold exactly as many newlines as
lines were read. -/
theorem C5_line_count_preserved (G : Rng) (g0 : G.State) (input : Reader) (output : Writer)
    (seed : Int) (h : (unsort G g0 input output seed).outcome = .returned none) :
    (unsort G g0 input output seed).w.calls.length =
      output.calls.length + (collect input).1.length ∧
    (shuffledLines G seed input).length = (collect input).1.length ∧
    (collect input).1.length = (rawLines input.data).length ∧
    ∃ written : List Byte,
      (unsort G g0 input output seed).w.out = output.out ++ written ∧
      written.count NL = (collect input).1.length := by
  cases hc : collect input with
  | mk lines err =>
    cases err with
    | some e =>
      have := (unsort_of_collect_err G g0 input output seed lines e hc).1
      rw [this] at h
      simp at h
    | none =>
      obtain ⟨h1, h2, _⟩ := unsort_of_collect G g0 input output seed lines hc
      rw [h1] at h
      injection h with h
      have hw := emit_none_writer _ output _ (Prod.ext h rfl)
      have hsl := shuffledLines_eq G seed input
      rw [hc] at hsl
      simp only at hsl
      have hperm : (applyDraws 0 (drawsOf G lines.length 0 (G.seed seed)) lines).Perm lines :=
        applyDraws_perm _ _ _
      have hraw : lines = (rawLines input.data).map dropCR := by
        have := (collect_none_lines input (by rw [hc])).1
        rw [hc] at this
        exact this
      refine ⟨?_, ?_, by rw [hraw]; simp, ((applyDraws 0 (drawsOf G lines.length 0 (G.seed seed))
        lines).map (· ++ [NL])).flatten, ?_, ?_⟩
      · have hcalls : (unsort G g0 input output seed).w.calls = output.calls ++
            (applyDraws 0 (drawsOf G lines.length 0 (G.seed seed)) lines).map (· ++ [NL]) := by
          rw [h2]; exact congrArg Writer.calls hw
        rw [hcalls]
        simp [hperm.length_eq]
      · rw [hsl]; exact hperm.length_eq
      · rw [h2]; exact congrArg Writer.out hw
      · rw [count_NL_flatten]
        · exact hperm.length_eq
        · intro l hl
          exact collect_no_NL input l (by rw [hc]; exact hperm.subset hl)

/-- Witness of C5: three lines, the linear congruential generator seeded with 7. -/
theorem C5_line_count_preserved_witness :
    (unsort lcgRng (0 : Nat) { data := bytes "a\nbb\n\n", final := .EOF } newBuffer 7).w.calls.length =
      newBuffer.calls.length + (collect { data := bytes "a\nbb\n\n", final := .EOF }).1.length ∧
    (shuffledLines lcgRng 7 { data := bytes "a\nbb\n\n", final := .EOF }).length =
      (collect { data := bytes "a\nbb\n\n", final := .EOF }).1.length ∧
    (collect { data := bytes "a\nbb\n\n", final := .EOF }).1.length =
      (rawLines (bytes "a\nbb\n\n")).length ∧
    ∃ written : List Byte,
      (unsort lcgRng (0 : Nat) { data := bytes "a\nbb\n\n", final := .EOF } newBuffer 7).w.out =
        newBuffer.out ++ written ∧
      written.count NL = (collect { data := bytes "a\nbb\n\n", final := .EOF }).1.length :=
  C5_line_count_preserved lcgRng (0 : Nat) { data := bytes "a\nbb\n\n", final := .EOF }
    newBuffer 7 (by decide)

/-- C6. On the empty input stream, for every generator, seed and output stream,
`unsort` returns `nil`, leaves the output as it was (no byte written, no
`Write` call) and makes no draw: the generator is left freshly seeded. -/
theorem C6_empty_input (G : Rng) (g0 : G.State) (output : Writer) (seed : Int) :
    (unsort G g0 { data := [], final := .EOF } output seed).outcome = .returned none ∧
    (unsort G g0 { data := [], final := .EOF } output seed).w = output ∧
    (unsort G g0 { data := [], final := .EOF } output seed).w.out = output.out ∧
    (unsort G g0 { data := [], final := .EOF } output seed).w.calls = output.calls ∧
    (unsort G g0 { data := [], final := .EOF } output seed).draws = [] ∧
    (unsort G g0 { data := [], final := .EOF } output seed).g = G.seed seed := by
  have hc : collect { data := [], final := .EOF } = ([], none) := by decide
  simp [unsort, hc, shuffle, shuffleLoop, emit, Rng.Seed]

/-- C7. When the input consists of a single line `L` (the collecting loop
yields the one record `L`), then for every generator and seed the only draw is
`Intn(1) = 0`, the swap of position 0 with itself leaves the line where it is,
and `unsort` writes exactly `L` followed by one newline, in a single `Write`
(given that this write is accepted). -/
theorem C7_single_line (G : Rng) (g0 : G.State) (input : Reader) (output : Writer) (seed : Int)
    (L : Line) (hc : collect input = ([L], none))
    (hw : output.fault output.calls (L ++ [NL]) = none) :
    (unsort G g0 input output seed).outcome = .returned none ∧
    (unsort G g0 input output seed).w.out = output.out ++ (L ++ [NL]) ∧
    (unsort G g0 input output seed).w.calls = output.calls ++ [L ++ [NL]] ∧
    (unsort G g0 input output seed).draws = [(1, 0)] ∧
    shuffledLines G seed input = [L] := by
  obtain ⟨h1, h2, h3⟩ := unsort_of_collect G g0 input output seed [L] hc
  have hj : (G.intn (G.seed seed) 1).1 = 0 := by
    have := G.intn_lt (G.seed seed) 1 Nat.one_pos
    omega
  have hd : drawsOf G 1 0 (G.seed seed) = [0] := by
    simp only [drawsOf, zero_add, hj]
  have hs : applyDraws 0 [0] [L] = [L] := by
    simp [applyDraws, swapStep, swapAt]
  have hem := emit_ok [L] output (by
    intro i hi
    have hi0 : i = 0 := by simpa using hi
    subst hi0
    simpa using hw)
  simp only [List.map_cons, List.map_nil, List.flatten_cons, List.flatten_nil,
    List.append_nil] at hem
  simp only [List.length_singleton] at h1 h2 h3
  rw [hd, hs, hem] at h1 h2
  rw [hd] at h3
  refine ⟨h1, by rw [h2], by rw [h2], by rw [h3]; rfl, ?_⟩
  rw [shuffledLines_eq, hc]
  simp only [List.length_singleton, hd, hs]

/-- Witness of C7: the single line `hello`. -/
theorem C7_single_line_witness :
    (unsort lcgRng (0 : Nat) { data := bytes "hello\n", final := .EOF } newBuffer 3).outcome
      = .returned none ∧
    (unsort lcgRng (0 : Nat) { data := bytes "hello\n", final := .EOF } newBuffer 3).w.out
      = newBuffer.out ++ (bytes "hello" ++ [NL]) ∧
    (unsort lcgRng (0 : Nat) { data := bytes "hello\n", final := .EOF } newBuffer 3).w.calls
      = newBuffer.calls ++ [bytes "hello" ++ [NL]] ∧
    (unsort lcgRng (0 : Nat) { data := bytes "hello\n", final := .EOF } newBuffer 3).draws
      = [(1, 0)] ∧
    shuffledLines lcgRng 3 { data := bytes "hello\n", final := .EOF } = [bytes "hello"] :=
  C7_single_line lcgRng (0 : Nat) { data := bytes "hello\n", final := .EOF } newBuffer 3
    (bytes "hello") (by decide) (by decide)

/-- C8. A failing write aborts `unsort` at once.  When the input was read
without an error and the write of the shuffled line at index `k` is the first
to fail, with error `e` after `n` bytes, `unsort` returns `e`; the writes made
are those of the shuffled lines at indices `0..k` and no other; the lines at
indices `0..k-1` are on the output in full, followed by the `n` bytes the
failed write let through.  And `unsort` returns `nil` only if every write
succeeded. -/
theorem C8_write_failure_aborts (G : Rng) (g0 : G.State) (input : Reader) (output : Writer)
    (seed : Int) (hread : (collect input).2 = none) :
    (∀ (k n : Nat) (e : GoError) (hk : k < (shuffledLines G seed input).length),
      (∀ i (h : i < k),
        output.fault (output.calls ++ ((shuffledLines G seed input).take i).map (· ++ [NL]))
          ((shuffledLines G seed input)[i] ++ [NL]) = none) →
      output.fault (output.calls ++ ((shuffledLines G seed input).take k).map (· ++ [NL]))
          ((shuffledLines G seed input)[k] ++ [NL]) = some (n, e) →
      (unsort G g0 input output seed).outcome = .returned (some e) ∧
      (unsort G g0 input output seed).w.calls =
        output.calls ++ ((shuffledLines G seed input).take (k + 1)).map (· ++ [NL]) ∧
      (unsort G g0 input output seed).w.out =
        output.out ++ (((shuffledLines G seed input).take k).map (· ++ [NL])).flatten ++
          ((shuffledLines G seed input)[k] ++ [NL]).take n) ∧
    ((unsort G g0 input output seed).outcome = .returned none →
      ∀ i (h : i < (shuffledLines G seed input).length),
        output.fault (output.calls ++ ((shuffledLines G seed input).take i).map (· ++ [NL]))
          ((shuffledLines G seed input)[i] ++ [NL]) = none) := by
  have hc : collect input = ((collect input).1, none) := Prod.ext rfl hread
  obtain ⟨h1, h2, _⟩ := unsort_of_collect G g0 input output seed _ hc
  rw [← shuffledLines_eq] at h1 h2
  constructor
  · intro k n e hk hok hbad
    have hem := emit_fail (shuffledLines G seed input) output k n e hk hok hbad
    rw [hem] at h1 h2
    exact ⟨h1, by rw [h2], by rw [h2]⟩
  · intro hnil i hi
    rw [h1] at hnil
    injection hnil with hnil
    exact emit_none_inv (shuffledLines G seed input) output _ (Prod.ext hnil rfl) i hi

/-- Witness of C8: three lines, shuffled to `y x z`; the second write lets one
byte through and fails. -/
theorem C8_write_failure_aborts_witness :
    (unsort lcgRng (0 : Nat) { data := bytes "x\ny\nz\n", final := .EOF }
      (failingWriter 1 1 (.other 28)) 42).outcome = .returned (some (.other 28)) ∧
    (unsort lcgRng (0 : Nat) { data := bytes "x\ny\nz\n", final := .EOF }
      (failingWriter 1 1 (.other 28)) 42).w.calls = [bytes "y\n", bytes "x\n"] ∧
    (unsort lcgRng (0 : Nat) { data := bytes "x\ny\nz\n", final := .EOF }
      (failingWriter 1 1 (.other 28)) 42).w.out = bytes "y\nx" :=
  (C8_write_failure_aborts lcgRng (0 : Nat) { data := bytes "x\ny\nz\n", final := .EOF }
    (failingWriter 1 1 (.other 28)) 42 (by decide)).1 1 1 (.other 28) (by decide) (by decide)
    (by decide)

/-- C9. When the input stream reports an error instead of its end, `unsort`
returns an error and leaves the output untouched, and makes no draw; when no
line reaches the scanner's limit, so that the scanner gets as far as the
stream's error, the error returned is the stream's, and the lines read before
it, though collected, are not written. -/
theorem C9_read_error (G : Rng) (g0 : G.State) (input : Reader) (output : Writer) (seed : Int)
    (he : input.final ≠ GoError.EOF) :
    (unsort G g0 input output seed).w = output ∧
    (unsort G g0 input output seed).draws = [] ∧
    ((unsort G g0 input output seed).outcome = .returned (some input.final) ∨
      (unsort G g0 input output seed).outcome = .returned (some GoError.ErrTooLong)) ∧
    ((∀ l ∈ rawLines input.data, l.length < MaxScanTokenSize) →
      (unsort G g0 input output seed).outcome = .returned (some input.final) ∧
      (collect input).1 = (rawLines input.data).map dropCR) := by
  have hspec := collect_spec input
  by_cases hall : (rawLines input.data).all (fun l => decide (l.length < MaxScanTokenSize)) = true
  · simp only [hall, if_true, he, if_false] at hspec
    obtain ⟨h1, h2, h3⟩ := unsort_of_collect_err G g0 input output seed _ _ hspec
    refine ⟨h2, h3, Or.inl h1, fun _ => ⟨h1, ?_⟩⟩
    rw [hspec]
    simp only
    rw [List.takeWhile_eq_self_iff.mpr]
    intro l hl
    exact List.all_eq_true.mp hall l hl
  · simp only [hall] at hspec
    obtain ⟨h1, h2, h3⟩ := unsort_of_collect_err G g0 input output seed _ _ hspec
    refine ⟨h2, h3, Or.inr h1, fun hshort => absurd ?_ hall⟩
    rw [List.all_eq_true]
    intro l hl
    exact decide_eq_true (hshort l hl)

/-- Witness of C9: the stream fails after two lines. -/
theorem C9_read_error_witness :
    (unsort lcgRng (0 : Nat) { data := bytes "a\nb\n", final := .other 5 } newBuffer 1).w
      = newBuffer ∧
    (unsort lcgRng (0 : Nat) { data := bytes "a\nb\n", final := .other 5 } newBuffer 1).outcome
      = .returned (some (.other 5)) ∧
    (collect { data := bytes "a\nb\n", final := .other 5 }).1 =
      (rawLines (bytes "a\nb\n")).map dropCR := by
  have T := C9_read_error lcgRng (0 : Nat) { data := bytes "a\nb\n", final := .other 5 }
    newBuffer 1 (by decide)
  exact ⟨T.1, (T.2.2.2 (by decide)).1, (T.2.2.2 (by decide)).2⟩

/-- Counterexample to C10 as stated: on the input `a`, carriage return, newline
the collected record is `a`, without the carriage return that the line holds
before its newline. -/
theorem C10_counterexample :
    (collect { data := [97, 13, 10], final := .EOF }).1 = [[97]] ∧
    rawLines [97, 13, 10] = [[97, 13]] ∧
    (collect { data := [97, 13, 10], final := .EOF }).1 ≠ rawLines [97, 13, 10] := by
  decide

/-- C10, amended. For every input stream the collected records are the lines of
the input, in input order, up to the first line of `MaxScanTokenSize` (65536)
bytes or more, where collecting stops; each record is the line without its
newline and without one carriage return at its end, if it has one. -/
theorem C10_collected_records (r : Reader) :
    (collect r).1 =
      ((rawLines r.data).takeWhile (fun l => decide (l.length < MaxScanTokenSize))).map dropCR ∧
    ((rawLines r.data).all (fun l => decide (l.length < MaxScanTokenSize)) = true →
      (collect r).1 = (rawLines r.data).map dropCR) := by
  have hspec := collect_spec r
  refine ⟨by rw [hspec], fun hall => ?_⟩
  rw [hspec]
  simp only
  rw [List.takeWhile_eq_self_iff.mpr]
  intro l hl
  exact List.all_eq_true.mp hall l hl

/-! ## Further lemmas on the stages -/

theorem rawLines_ne_nil (data : List Byte) (h : data ≠ []) : rawLines data ≠ [] := by
  cases data with
  | nil => exact absurd rfl h
  | cons b rest =>
    simp only [rawLines]
    split
    · simp
    · split <;> simp

theorem rawLines_append_NL : ∀ (data : List Byte), data ≠ [] → data.getLast? ≠ some NL →
    rawLines (data ++ [NL]) = rawLines data := by
  intro data
  induction data with
  | nil => intro h; exact absurd rfl h
  | cons b rest ih =>
    intro _ hlast
    cases rest with
    | nil =>
      have hb : b ≠ NL := by
        intro hb; apply hlast; simp [hb]
      simp [rawLines, hb]
    | cons c rest1 =>
      have hlast1 : (c :: rest1).getLast? ≠ some NL := by
        intro h; apply hlast
        rw [List.getLast?_cons_cons]; exact h
      have := ih (by simp) hlast1
      simp only [List.cons_append] at this ⊢
      by_cases hb : b = NL
      · simp only [rawLines, hb, if_true] at this ⊢
        rw [this]
      · simp only [rawLines, hb, if_false] at this ⊢
        rw [this]

theorem collect_append_NL (r : Reader) (hne : r.data ≠ []) (hlast : r.data.getLast? ≠ some NL) :
    collect { r with data := r.data ++ [NL] } = collect r := by
  rw [collect_spec, collect_spec]
  simp only [rawLines_append_NL r.data hne hlast]

theorem flatten_nl_getLast : ∀ (p : List Line) (pre : List Byte), p ≠ [] →
    (pre ++ (p.map (· ++ [NL])).flatten).getLast? = some NL := by
  intro p
  induction p with
  | nil => intro _ h; exact absurd rfl h
  | cons a rest ih =>
    intro pre _
    cases rest with
    | nil => simp
    | cons b rest1 =>
      have := ih (pre ++ (a ++ [NL])) (by simp)
      simpa [List.append_assoc] using this

theorem unsort_congr_collect (G : Rng) (g0 : G.State) (i1 i2 : Reader) (output : Writer)
    (seed : Int) (h : collect i1 = collect i2) :
    unsort G g0 i1 output seed = unsort G g0 i2 output seed := by
  simp only [unsort, h]

theorem shuffleLoop_split (G : Rng) (m : Nat) : ∀ (k i : Nat) (st : ShuffleState G),
    shuffleLoop G (k + m) i st =
      (shuffleLoop G k i st).bind (fun s => shuffleLoop G m (i + k) s) := by
  intro k
  induction k with
  | zero => intro i st; simp [shuffleLoop]
  | succ k ih =>
    intro i st
    have h : k + 1 + m = (k + m) + 1 := by omega
    rw [h]
    simp only [shuffleLoop]
    cases hI : G.Intn st.g (i + 1) with
    | none => simp
    | some p =>
      obtain ⟨j, g1⟩ := p
      simp only
      cases hS : swapAt st.lines i j with
      | none => simp
      | some lines1 =>
        simp only
        rw [ih (i + 1)]
        have h2 : i + 1 + k = i + (k + 1) := by omega
        rw [h2]

theorem zip_draws_bounds : ∀ (d : List Nat) (i : Nat), ValidDraws i d →
    ∀ p ∈ (List.range' (i + 1) d.length).zip d,
      i + 1 ≤ p.1 ∧ p.2 < p.1 ∧ p.1 ≤ i + d.length := by
  intro d
  induction d with
  | nil => intro i _ p hp; simp at hp
  | cons j js ih =>
    intro i hv p hp
    obtain ⟨hj, hv1⟩ := hv
    simp only [List.length_cons, List.range'_succ, List.zip_cons_cons, List.mem_cons] at hp
    rcases hp with hp | hp
    · subst hp
      simp only [List.length_cons]
      omega
    · have := ih (i + 1) hv1 p hp
      simp only [List.length_cons]
      omega

theorem applyDraws_invariant {α : Type} (l : List α) (d : List Nat) (hv : ValidDraws 0 d)
    (hk : d.length ≤ l.length) :
    (applyDraws 0 d l).drop d.length = l.drop d.length ∧
    ((applyDraws 0 d l).take d.length).Perm (l.take d.length) := by
  have hframe := applyDraws_frame d 0 (l.take d.length) (l.drop d.length) hv
    (by simp only [List.length_take]; omega)
  rw [List.take_append_drop] at hframe
  have hlen : (applyDraws 0 d (l.take d.length)).length = d.length := by
    rw [applyDraws_length, List.length_take]; omega
  rw [hframe]
  constructor
  · rw [List.drop_left' hlen]
  · rw [List.take_left' hlen]
    exact applyDraws_perm _ _ _

theorem insideOutFrom_eq {α : Type} (src : List α) : ∀ (d : List Nat) (i : Nat) (a l : List α),
    ValidDraws i d → i + d.length = src.length → a.length = src.length →
    l.length = src.length → (∀ t, t < i → a[t]? = l[t]?) → (∀ t, i ≤ t → l[t]? = src[t]?) →
    insideOutFrom src i d a = applyDraws i d l := by
  intro d
  induction d with
  | nil =>
    intro i a l _ hi ha hl h1 _
    simp only [List.length_nil, Nat.add_zero] at hi
    simp only [insideOutFrom, applyDraws]
    apply List.ext_getElem?
    intro t
    by_cases ht : t < i
    · exact h1 t ht
    · rw [List.getElem?_eq_none (by omega), List.getElem?_eq_none (by omega)]
  | cons j js ih =>
    intro i a l hv hi ha hl h1 h2
    obtain ⟨hj, hv1⟩ := hv
    simp only [List.length_cons] at hi
    have hin : i < src.length := by omega
    have hjn : j < src.length := by omega
    have hli : l[i] = src[i] := by
      have := h2 i (le_refl i)
      rw [List.getElem?_eq_getElem (by omega), List.getElem?_eq_getElem hin] at this
      exact Option.some.inj this
    have hstep : swapStep l i j = (l.set i l[j]).set j l[i] :=
      swapStep_eq l i j (by omega) (by omega)
    simp only [insideOutFrom, applyDraws, List.getElem?_eq_getElem (show j < a.length by omega),
      List.getElem?_eq_getElem hin, hstep]
    apply ih (i + 1) _ _ hv1 (by omega) (by simp [ha]) (by simp [hl])
    · intro t ht
      rw [List.getElem?_set, List.getElem?_set, List.getElem?_set, List.getElem?_set]
      simp only [List.length_set]
      by_cases htj : j = t
      · subst htj
        simp only [if_true, show j < a.length by omega, show j < l.length by omega, hli]
      · simp only [htj, if_false]
        by_cases hti : i = t
        · subst hti
          have hji : j < i := by omega
          have := h1 j hji
          rw [List.getElem?_eq_getElem (by omega), List.getElem?_eq_getElem (by omega)] at this
          simp only [if_true, show i < a.length by omega, show i < l.length by omega,
            Option.some.inj this]
        · simp only [hti, if_false]
          exact h1 t (by omega)
    · intro t ht
      rw [List.getElem?_set_ne (by omega), List.getElem?_set_ne (by omega)]
      exact h2 t (by omega)

/-! ## The claims, continued -/

/-- C11. When no write fails, the bytes `unsort` writes are exactly the shuffled
records in ascending index order, each followed by one newline, one `Write` per
record, and `unsort` returns `nil` (when the input could not be read, nothing
is shuffled and nothing is written).  The newline is put there by the emitting
loop, not taken from the input: the output of a non-empty input ends in a
newline, and an input whose last line has no newline gives the very run of the
same input with that newline added. -/
theorem C11_output_bytes (G : Rng) (g0 : G.State) (input : Reader) (output : Writer)
    (seed : Int)
    (hw : ∀ i (h : i < (shuffledLines G seed input).length),
      output.fault (output.calls ++ ((shuffledLines G seed input).take i).map (· ++ [NL]))
        ((shuffledLines G seed input)[i] ++ [NL]) = none) :
    ((collect input).2 = none →
      (unsort G g0 input output seed).outcome = .returned none ∧
      (unsort G g0 input output seed).w.out =
        output.out ++ ((shuffledLines G seed input).map (· ++ [NL])).flatten ∧
      (unsort G g0 input output seed).w.calls =
        output.calls ++ (shuffledLines G seed input).map (· ++ [NL]) ∧
      (input.data ≠ [] → (unsort G g0 input output seed).w.out.getLast? = some NL)) ∧
    ((collect input).2 ≠ none →
      (unsort G g0 input output seed).w.out = output.out ∧
      (unsort G g0 input output seed).w.calls = output.calls) ∧
    (input.data ≠ [] → input.data.getLast? ≠ some NL →
      unsort G g0 { input with data := input.data ++ [NL] } output seed =
        unsort G g0 input output seed) := by
  refine ⟨?_, ?_, ?_⟩
  · intro hread
    have hc : collect input = ((collect input).1, none) := Prod.ext rfl hread
    obtain ⟨h1, h2, _⟩ := unsort_of_collect G g0 input output seed _ hc
    rw [← shuffledLines_eq] at h1 h2
    have hem := emit_ok (shuffledLines G seed input) output hw
    rw [hem] at h1 h2
    have hout : (unsort G g0 input output seed).w.out =
        output.out ++ ((shuffledLines G seed input).map (· ++ [NL])).flatten := by rw [h2]
    refine ⟨h1, hout, by rw [h2], ?_⟩
    intro hne
    rw [hout]
    apply flatten_nl_getLast
    intro hnil
    have hlen : (shuffledLines G seed input).length = (collect input).1.length := by
      rw [shuffledLines_eq]; exact applyDraws_length _ _ _
    rw [hnil, (collect_none_lines input hread).1] at hlen
    simp only [List.length_nil, List.length_map] at hlen
    exact rawLines_ne_nil input.data hne (List.length_eq_zero.mp hlen.symm)
  · intro hread
    cases he : (collect input).2 with
    | none => exact absurd he hread
    | some e =>
      have hc : collect input = ((collect input).1, some e) := Prod.ext rfl he
      obtain ⟨_, h2, _⟩ := unsort_of_collect_err G g0 input output seed _ _ hc
      rw [h2]
      exact ⟨rfl, rfl⟩
  · intro hne hlast
    exact unsort_congr_collect G g0 _ _ output seed (collect_append_NL input hne hlast)

/-- Witness of C11: the last line of the input has no newline; the output ends
in one. -/
theorem C11_output_bytes_witness :
    (unsort lcgRng (0 : Nat) { data := bytes "a\nb", final := .EOF } newBuffer 42).outcome
      = .returned none ∧
    (unsort lcgRng (0 : Nat) { data := bytes "a\nb", final := .EOF } newBuffer 42).w.out =
      newBuffer.out ++
        ((shuffledLines lcgRng 42 { data := bytes "a\nb", final := .EOF }).map
          (· ++ [NL])).flatten ∧
    (unsort lcgRng (0 : Nat) { data := bytes "a\nb", final := .EOF } newBuffer 42).w.out.getLast?
      = some NL := by
  have T := (C11_output_bytes lcgRng (0 : Nat) { data := bytes "a\nb", final := .EOF } newBuffer
    42 (by decide)).1 (by decide)
  exact ⟨T.1, T.2.1, T.2.2.2 (by decide)⟩

/-- C12. The permuting phase cannot fail.  For every generator and every line
sequence the shuffle loop ends without a panic and keeps the length; the bounds
it asks of `Intn` are `1, 2, ..., length` in this order, so each is at least 1;
each logged draw `(i + 1, j)` has `j < i + 1 ≤ length`, so both positions of the
swap are in bounds; the loop stopped after any number of turns has not
panicked either; and `unsort` as a whole never panics. -/
theorem C12_permuting_never_fails (G : Rng) (g0 g : G.State) (input : Reader) (output : Writer)
    (seed : Int) (lines : List Line) :
    (∃ st, shuffle G g lines = some st ∧ st.lines.length = lines.length ∧
      st.draws.map Prod.fst = List.range' 1 lines.length ∧
      ∀ p ∈ st.draws, 1 ≤ p.1 ∧ p.2 < p.1 ∧ p.1 ≤ lines.length) ∧
    (∀ k, k ≤ lines.length →
      ∃ stk, shuffleLoop G k 0 { lines := lines, g := g, draws := [] } = some stk ∧
        stk.lines.length = lines.length) ∧
    (unsort G g0 input output seed).outcome ≠ .panicked := by
  refine ⟨?_, ?_, ?_⟩
  · obtain ⟨st, h1, h2, h3⟩ := shuffleLoop_spec G lines.length 0
      { lines := lines, g := g, draws := [] } (by simp)
    simp only [List.nil_append, zero_add] at h2 h3
    refine ⟨st, h1, ?_, ?_, ?_⟩
    · rw [h2]; exact applyDraws_length _ _ _
    · rw [h3]
      exact List.map_fst_zip _ _ (by simp [drawsOf_length])
    · intro p hp
      rw [h3] at hp
      have := zip_draws_bounds (drawsOf G lines.length 0 g) 0 (drawsOf_valid G _ _ _) p
        (by simpa [drawsOf_length] using hp)
      simp only [drawsOf_length, zero_add] at this
      omega
  · intro k hk
    obtain ⟨stk, h1, h2, _⟩ := shuffleLoop_spec G k 0
      { lines := lines, g := g, draws := [] } (by simpa using hk)
    exact ⟨stk, h1, by rw [h2]; exact applyDraws_length _ _ _⟩
  · cases hc : collect input with
    | mk ls err =>
      cases err with
      | some e =>
        rw [(unsort_of_collect_err G g0 input output seed ls e hc).1]
        simp
      | none =>
        rw [(unsort_of_collect G g0 input output seed ls hc).1]
        simp

/-- C13. The in-place ascending swap loop computes what the inside-out
construction builds from scratch: for every line sequence `src`, every draw
vector with `j_i ≤ i` and every scratch array of the same length, the array
built by `a[i] := a[j_i]; a[j_i] := src[i]` for ascending `i` is the array the
swap loop leaves; and so it is for the draws of any generator. -/
theorem C13_inside_out (src : List Line) (d : List Nat) (scratch : List Line)
    (hlen : d.length = src.length) (hv : ValidDraws 0 d)
    (hs : scratch.length = src.length) :
    applyDraws 0 d src = insideOut src d scratch ∧
    (∃ st, shuffle (replayRng d) (0 : Nat) src = some st ∧
      st.lines = insideOut src d scratch) ∧
    (∀ (G : Rng) (g : G.State), ∃ st, shuffle G g src = some st ∧
      st.lines = insideOut src (drawsOf G src.length 0 g) scratch) := by
  have key : ∀ e : List Nat, e.length = src.length → ValidDraws 0 e →
      insideOut src e scratch = applyDraws 0 e src := by
    intro e he hve
    exact insideOutFrom_eq src e 0 scratch src hve (by omega) hs rfl
      (fun t ht => absurd ht (Nat.not_lt_zero t)) (fun _ _ => rfl)
  have hloop : ∀ (G : Rng) (g : G.State), ∃ st, shuffle G g src = some st ∧
      st.lines = insideOut src (drawsOf G src.length 0 g) scratch := by
    intro G g
    obtain ⟨st, h1, h2, _⟩ := shuffleLoop_spec G src.length 0
      { lines := src, g := g, draws := [] } (by simp)
    refine ⟨st, h1, ?_⟩
    rw [h2, key _ (drawsOf_length G _ _ _) (drawsOf_valid G _ _ _)]
  refine ⟨(key d hlen hv).symm, ?_, hloop⟩
  obtain ⟨st, h1, h2⟩ := hloop (replayRng d) (0 : Nat)
  have hrep := drawsOf_replay d [] 0 hv
  simp only [List.nil_append, List.length_nil, hlen] at hrep
  rw [hrep] at h2
  exact ⟨st, h1, h2⟩

/-- Witness of C13: three lines, the draws `0, 0, 1`, a scratch array of empty
strings. -/
theorem C13_inside_out_witness :
    applyDraws 0 [0, 0, 1] ([bytes "a", bytes "b", bytes "c"] : List Line) =
      insideOut [bytes "a", bytes "b", bytes "c"] [0, 0, 1] [[], [], []] ∧
    insideOut ([bytes "a", bytes "b", bytes "c"] : List Line) [0, 0, 1] [[], [], []] =
      [bytes "b", bytes "c", bytes "a"] :=
  ⟨(C13_inside_out [bytes "a", bytes "b", bytes "c"] [0, 0, 1] [[], [], []] (by decide)
      (by simp [ValidDraws]) (by decide)).1, by decide⟩

/-- Counterexample to C14 as stated: a single line of 65537 bytes, read from a
stream that ends normally, is not collected; the scanner stops with
`ErrTooLong`, which `unsort` returns, and nothing is written. -/
theorem C14_counterexample :
    collect { data := List.replicate 65537 97 ++ [NL], final := .EOF } =
      ([], some GoError.ErrTooLong) ∧
    (unsort lcgRng (0 : Nat) { data := List.replicate 65537 97 ++ [NL], final := .EOF }
      newBuffer 1).outcome = .returned (some GoError.ErrTooLong) ∧
    (unsort lcgRng (0 : Nat) { data := List.replicate 65537 97 ++ [NL], final := .EOF }
      newBuffer 1).w.out = [] := by
  have hc : collect { data := List.replicate 65537 97 ++ [NL], final := .EOF } =
      ([], some GoError.ErrTooLong) :=
    collect_first_line_too_long (List.replicate 65537 97) [] .EOF
      (fun h => absurd (List.eq_of_mem_replicate h) (by decide))
      (by rw [List.length_replicate]; decide)
  obtain ⟨h1, h2, _⟩ := unsort_of_collect_err lcgRng (0 : Nat) _ newBuffer 1 _ _ hc
  exact ⟨hc, h1, by rw [h2]; rfl⟩

/-- C14, amended. A record must be shorter than `MaxScanTokenSize` (65536)
bytes.  For an input stream that ends without a stream error: when every line
is shorter than that, the collecting step succeeds and yields every line; when
some line is not, the collecting step fails with `ErrTooLong`, and `unsort`
returns that error and leaves the output untouched. -/
theorem C14_line_length_limit (G : Rng) (g0 : G.State) (input : Reader) (output : Writer)
    (seed : Int) (hfinal : input.final = GoError.EOF) :
    ((∀ l ∈ rawLines input.data, l.length < MaxScanTokenSize) →
      collect input = ((rawLines input.data).map dropCR, none)) ∧
    ((∃ l ∈ rawLines input.data, MaxScanTokenSize ≤ l.length) →
      (collect input).2 = some GoError.ErrTooLong ∧
      (unsort G g0 input output seed).outcome = .returned (some GoError.ErrTooLong) ∧
      (unsort G g0 input output seed).w = output) := by
  have hspec := collect_spec input
  constructor
  · intro hshort
    have hall : (rawLines input.data).all (fun l => decide (l.length < MaxScanTokenSize)) = true := by
      rw [List.all_eq_true]
      intro l hl
      exact decide_eq_true (hshort l hl)
    rw [hspec]
    simp only [hall, if_true, hfinal]
    rw [List.takeWhile_eq_self_iff.mpr]
    intro l hl
    exact List.all_eq_true.mp hall l hl
  · rintro ⟨l, hl, hlong⟩
    have hall : ¬ (rawLines input.data).all (fun l => decide (l.length < MaxScanTokenSize)) = true := by
      rw [List.all_eq_true]
      intro h
      have := of_decide_eq_true (h l hl)
      omega
    rw [if_neg hall] at hspec
    obtain ⟨h1, h2, _⟩ := unsort_of_collect_err G g0 input output seed _ _ hspec
    exact ⟨by rw [hspec], h1, h2⟩

/-- Witness of C14: two short lines are collected. -/
theorem C14_line_length_limit_witness :
    collect { data := bytes "ab\ncd", final := .EOF } =
      ((rawLines (bytes "ab\ncd")).map dropCR, none) :=
  (C14_line_length_limit lcgRng (0 : Nat) { data := bytes "ab\ncd", final := .EOF } newBuffer 1
    rfl).1 (by decide)

/-- C15. The invariant of the shuffle loop: for every generator, every line
sequence and every `k ≤ length`, the first `k` turns of the loop end without a
panic in a state where every position from `k` on holds its original record
and the first `k` positions hold a permutation of the original first `k`
records; the whole loop is these `k` turns followed by the remaining ones; and
the same holds of the loop run on any vector of `k` draws with `j_i ≤ i`. -/
theorem C15_loop_invariant (G : Rng) (g : G.State) (lines : List Line) (k : Nat)
    (hk : k ≤ lines.length) :
    (∃ st, shuffleLoop G k 0 { lines := lines, g := g, draws := [] } = some st ∧
      st.lines.drop k = lines.drop k ∧ (st.lines.take k).Perm (lines.take k) ∧
      shuffle G g lines = shuffleLoop G (lines.length - k) k st) ∧
    (∀ d : List Nat, d.length = k → ValidDraws 0 d →
      (applyDraws 0 d lines).drop k = lines.drop k ∧
      ((applyDraws 0 d lines).take k).Perm (lines.take k)) := by
  have hdraws : ∀ d : List Nat, d.length = k → ValidDraws 0 d →
      (applyDraws 0 d lines).drop k = lines.drop k ∧
      ((applyDraws 0 d lines).take k).Perm (lines.take k) := by
    intro d hd hv
    have := applyDraws_invariant lines d hv (by omega)
    rw [hd] at this
    exact this
  refine ⟨?_, hdraws⟩
  obtain ⟨st, h1, h2, _⟩ := shuffleLoop_spec G k 0
    { lines := lines, g := g, draws := [] } (by simpa using hk)
  simp only at h2
  obtain ⟨h3, h4⟩ := hdraws (drawsOf G k 0 g) (drawsOf_length G _ _ _) (drawsOf_valid G _ _ _)
  refine ⟨st, h1, by rw [h2]; exact h3, by rw [h2]; exact h4, ?_⟩
  have hsplit := shuffleLoop_split G (lines.length - k) k 0
    { lines := lines, g := g, draws := [] }
  rw [h1] at hsplit
  have hn : k + (lines.length - k) = lines.length := by omega
  rw [hn] at hsplit
  simpa [shuffle] using hsplit

/-- Witness of C15: four lines after two turns of the loop. -/
theorem C15_loop_invariant_witness :
    ∃ st, shuffleLoop lcgRng 2 0
        { lines := [bytes "a", bytes "b", bytes "c", bytes "d"], g := (42 : Nat), draws := [] }
        = some st ∧
      st.lines.drop 2 = [bytes "c", bytes "d"] ∧
      (st.lines.take 2).Perm [bytes "a", bytes "b"] := by
  obtain ⟨st, h1, h2, h3, _⟩ :=
    (C15_loop_invariant lcgRng (42 : Nat) [bytes "a", bytes "b", bytes "c", bytes "d"] 2
      (by decide)).1
  exact ⟨st, h1, h2, h3⟩

end Unsort
